import Mathlib

/-!
Verification of the Minesweeper game engine (`src/main.py`, class `MinesweeperGame`
and `Position`).  The engine is embedded shallowly:

* Python `Position` (frozen dataclass of two ints) becomes a structure of two `Int`s.
* Python sets become `Finset Position`; `dict`s with a read-default
  (`defaultdict(lambda: CellState.HIDDEN)` for `cell_states`, `adjacent_cache.get(p, 0)`
  for the adjacency cache) become total functions returning the default outside
  their written domain, which is observationally equal to the source since every
  read in the program goes through the default.
* `random.sample(list(available), k)` is modelled nondeterministically: the sampled
  set is an explicit argument, and `ValidSample` characterises the outcomes the
  library can produce (a subset of `available` of the sampled size).
* `time.time()` is modelled by an explicit `now : Int` argument to the operations
  that read the clock.
* The flood-fill worklist is a Python `set` with arbitrary `pop` order; it is
  embedded as a list processed head-first (a fixed pop order), with fuel making the
  recursion structural.  Fuel sufficiency is proved (`floodAux_total`), and the
  result is proved equal to an order-independent closure, so the fixed order is
  faithful to the arbitrary-order source.  The fill additionally returns the list
  of cells it newly reveals, in order (the sequence of `self.revealed.add(current)`
  calls of the source loop); `reveal_cell` uses it to update `cell_states`.
* The iteration order of `all(self.reveal_cell(n) for n in hidden_neighbors)` over
  a Python set in `auto_reveal_neighbors` is likewise fixed to the neighbour
  generation order.
-/

/-- Game state enumeration (`GameState` in the source). -/
inductive GameState where
  | ready
  | playing
  | won
  | lost
deriving DecidableEq, Repr

/-- Cell state enumeration (`CellState` in the source; `questioned` is declared but
never assigned by the program). -/
inductive CellState where
  | hidden
  | revealed
  | flagged
  | questioned
deriving DecidableEq, Repr

/-- Immutable position (`Position` in the source); Python ints become `Int`. -/
structure Position where
  row : Int
  col : Int
deriving DecidableEq, Repr

/-- The eight candidate neighbour offsets, in the order generated by the source
comprehension `for dr in (-1, 0, 1) for dc in (-1, 0, 1) if (dr or dc)`. -/
def neighborOffsets : List (Int × Int) :=
  [(-1, -1), (-1, 0), (-1, 1), (0, -1), (0, 1), (1, -1), (1, 0), (1, 1)]

/-- Bounds check `0 <= row < max_row and 0 <= col < max_col` used by the source's
neighbour comprehension. -/
def inGrid (maxRow maxCol : Nat) (p : Position) : Bool :=
  decide (0 ≤ p.row) && decide (p.row < (maxRow : Int)) &&
  decide (0 ≤ p.col) && decide (p.col < (maxCol : Int))

/-- Valid neighbour positions of `p`, as the list produced by walking the offsets in
source order and clipping to the grid (`Position.neighbors` in the source builds the
same elements as a set). -/
def Position.neighborsList (p : Position) (maxRow maxCol : Nat) : List Position :=
  (neighborOffsets.map (fun d => Position.mk (p.row + d.1) (p.col + d.2))).filter
    (fun q => inGrid maxRow maxCol q)

/-- The set of valid neighbour positions of `p` (`Position.neighbors` in the source). -/
def Position.neighbors (p : Position) (maxRow maxCol : Nat) : Finset Position :=
  (p.neighborsList maxRow maxCol).toFinset

/-- All grid cells: `{Position(r, c) for r in range(rows) for c in range(cols)}`. -/
def allCells (rows cols : Nat) : Finset Position :=
  ((Finset.range rows) ×ˢ (Finset.range cols)).image
    (fun rc => Position.mk (rc.1 : Int) (rc.2 : Int))

/-- The game engine state: the fields of `MinesweeperGame.__init__`. -/
structure MinesweeperGame where
  rows : Nat
  cols : Nat
  total_mines : Nat
  state : GameState
  start_time : Int
  elapsed_time : Int
  mines : Finset Position
  cell_states : Position → CellState
  revealed : Finset Position
  flags : Finset Position
  adjacent_cache : Position → Nat

/-- A freshly constructed engine (`MinesweeperGame.__init__(rows, cols, mines)`). -/
def MinesweeperGame.new (rows cols mines : Nat) : MinesweeperGame where
  rows := rows
  cols := cols
  total_mines := mines
  state := GameState.ready
  start_time := 0
  elapsed_time := 0
  mines := ∅
  cell_states := fun _ => CellState.hidden
  revealed := ∅
  flags := ∅
  adjacent_cache := fun _ => 0

/-- Embeds `MinesweeperGame.reset`: clears all per-session sets/maps, returns
state to ready, zeroes timers. -/
def MinesweeperGame.reset (g : MinesweeperGame) : MinesweeperGame :=
  { g with
    mines := ∅
    cell_states := fun _ => CellState.hidden
    revealed := ∅
    flags := ∅
    adjacent_cache := fun _ => 0
    state := GameState.ready
    start_time := 0
    elapsed_time := 0 }

/-- The safe zone of a first click: `{first_click} | first_click.neighbors(...)`. -/
def MinesweeperGame.safeZone (g : MinesweeperGame) (first_click : Position) : Finset Position :=
  insert first_click (first_click.neighbors g.rows g.cols)

/-- Candidate mine cells: all grid positions minus the safe zone
(`available` in `initialize_mines`). -/
def MinesweeperGame.availableCells (g : MinesweeperGame) (first_click : Position) :
    Finset Position :=
  allCells g.rows g.cols \ g.safeZone first_click

/-- Characterisation of the possible outcomes of
`random.sample(list(available), min(self.total_mines, len(available)))`:
a subset of `available` of exactly that size. -/
def ValidSample (g : MinesweeperGame) (first_click : Position) (sample : Finset Position) :
    Prop :=
  sample ⊆ g.availableCells first_click ∧
    sample.card = min g.total_mines (g.availableCells first_click).card

/-- Embeds `MinesweeperGame._cache_adjacent_counts`: the adjacency dictionary maps every
grid cell to the number of mines among its neighbours; reads outside the grid hit
the `.get(p, 0)` default. -/
def MinesweeperGame.cacheAdjacentCounts (g : MinesweeperGame) : MinesweeperGame :=
  { g with
    adjacent_cache := fun p =>
      if inGrid g.rows g.cols p then ((p.neighbors g.rows g.cols) ∩ g.mines).card else 0 }

/-- Embeds `MinesweeperGame.initialize_mines(first_click)` with the sampling outcome and
clock reading taken as arguments: store the mines, cache adjacency counts,
transition to playing, record the start time. -/
def MinesweeperGame.initialize_mines (g : MinesweeperGame) (first_click : Position)
    (sample : Finset Position) (now : Int) : MinesweeperGame :=
  let g1 := { g with mines := sample }
  let g2 := g1.cacheAdjacentCounts
  { g2 with state := GameState.playing, start_time := now }

/-- Cells enqueued when a zero-adjacency cell is popped:
`current.neighbors(...) - self.revealed - self.flags`, in neighbour order
(`revealed'` is the revealed set that already contains `current`). -/
def floodEnqueue (rows cols : Nat) (flags revealed' : Finset Position) (current : Position) :
    List Position :=
  (current.neighborsList rows cols).filter
    (fun q => decide (q ∉ revealed') && decide (q ∉ flags))

/-- The flood-fill worklist loop of `reveal_cell`, with fuel (one unit per loop
iteration).  `none` means the fuel ran out (proved impossible for the fuel
`reveal_cell` supplies).  On success it returns the final revealed set and the
list of newly revealed cells in processing order. -/
def floodAux (rows cols : Nat) (flags : Finset Position) (adj : Position → Nat) :
    Nat → List Position → Finset Position → Option (Finset Position × List Position)
  | _, [], revealed => some (revealed, [])
  | 0, _ :: _, _ => none
  | fuel + 1, current :: rest, revealed =>
    if current ∈ revealed then
      floodAux rows cols flags adj fuel rest revealed
    else
      match floodAux rows cols flags adj fuel
          (if adj current = 0 then
            rest ++ floodEnqueue rows cols flags (insert current revealed) current
          else rest)
          (insert current revealed) with
      | none => none
      | some (r, tr) => some (r, current :: tr)

/-- Fuel that always suffices for the flood fill (proved in `floodAux_total`). -/
def floodFuel (g : MinesweeperGame) : Nat :=
  9 * (g.rows * g.cols + 1) + 1

/-- Lazy mine placement at the head of `reveal_cell`:
`if self.state == GameState.READY: self.initialize_mines(pos)`. -/
def MinesweeperGame.afterInit (g0 : MinesweeperGame) (pos : Position)
    (sample : Finset Position) (now : Int) : MinesweeperGame :=
  if g0.state = GameState.ready then g0.initialize_mines pos sample now else g0

/-- State after the flood fill of `reveal_cell` completed with final revealed set
`r` and newly revealed cells `tr`: record the reveals and the per-cell state
updates, then apply the win check (transition to won, freeze elapsed time,
`self.flags = self.mines.copy()`). -/
def MinesweeperGame.fillResult (g : MinesweeperGame) (now : Int) (r : Finset Position)
    (tr : List Position) : MinesweeperGame :=
  let g1 :=
    { g with
      revealed := r
      cell_states := fun q => if q ∈ tr then CellState.revealed else g.cell_states q }
  if g1.revealed.card + g1.mines.card = g1.rows * g1.cols then
    { g1 with
      state := GameState.won
      elapsed_time := now - g1.start_time
      flags := g1.mines }
  else
    g1

/-- Embeds `MinesweeperGame.reveal_cell(pos)`; the boolean result is the Python
return value.  The fuel-exhaustion branch of the fill returns `(false, g)`; it is
proved unreachable (`floodAux_total`). -/
def MinesweeperGame.reveal_cell (g0 : MinesweeperGame) (pos : Position)
    (sample : Finset Position) (now : Int) : Bool × MinesweeperGame :=
  let g := g0.afterInit pos sample now
  if (g.state ≠ GameState.playing ∧ g.state ≠ GameState.ready) ∨
      pos ∈ g.revealed ∨ pos ∈ g.flags then
    (false, g)
  else if pos ∈ g.mines then
    (false, { g with state := GameState.lost, elapsed_time := now - g.start_time })
  else
    match floodAux g.rows g.cols g.flags g.adjacent_cache (floodFuel g) [pos] g.revealed with
    | none => (false, g)
    | some (rev', tr) => (true, g.fillResult now rev' tr)

/-- Embeds `MinesweeperGame.toggle_flag(pos)`: no-op if revealed or not playing, else
symmetric difference on the flag set (`self.flags ^= {pos}`) and the matching
cell-state update. -/
def MinesweeperGame.toggle_flag (g : MinesweeperGame) (pos : Position) : MinesweeperGame :=
  if pos ∈ g.revealed ∨ g.state ≠ GameState.playing then g
  else
    let flags' := symmDiff g.flags {pos}
    { g with
      flags := flags'
      cell_states :=
        Function.update g.cell_states pos
          (if pos ∈ flags' then CellState.flagged else CellState.hidden) }

/-- The hidden neighbours `neighbors - self.revealed - self.flags` of
`auto_reveal_neighbors`, in neighbour generation order. -/
def MinesweeperGame.chordHidden (g : MinesweeperGame) (pos : Position) : List Position :=
  (pos.neighborsList g.rows g.cols).filter
    (fun q => decide (q ∉ g.revealed) && decide (q ∉ g.flags))

/-- The short-circuiting `all(self.reveal_cell(n) for n in hidden_neighbors)`:
reveal each listed cell in turn, stopping at the first failure. -/
def revealEach (g : MinesweeperGame) (sample : Finset Position) (now : Int) :
    List Position → Bool × MinesweeperGame
  | [] => (true, g)
  | n :: rest =>
    let r := g.reveal_cell n sample now
    if r.1 then revealEach r.2 sample now rest else (false, r.2)

/-- Embeds `MinesweeperGame.auto_reveal_neighbors(pos)` (the chord). -/
def MinesweeperGame.auto_reveal_neighbors (g : MinesweeperGame) (pos : Position)
    (sample : Finset Position) (now : Int) : Bool × MinesweeperGame :=
  if pos ∉ g.revealed ∨ g.state ≠ GameState.playing then (false, g)
  else
    let nbrs := pos.neighbors g.rows g.cols
    let flagged := nbrs ∩ g.flags
    if flagged.card = g.adjacent_cache pos then
      revealEach g sample now (g.chordHidden pos)
    else
      (false, g)

/-! ### Basic facts about the grid and neighbour generation -/

/-- Unfolding of the bounds check. -/
theorem inGrid_iff (maxRow maxCol : Nat) (p : Position) :
    inGrid maxRow maxCol p = true ↔
      0 ≤ p.row ∧ p.row < (maxRow : Int) ∧ 0 ≤ p.col ∧ p.col < (maxCol : Int) := by
  simp [inGrid, and_assoc]

/-- Neighbour list membership implies the bounds check. -/
theorem mem_neighborsList_inGrid {p q : Position} {maxRow maxCol : Nat}
    (h : q ∈ p.neighborsList maxRow maxCol) : inGrid maxRow maxCol q = true := by
  simp only [Position.neighborsList, List.mem_filter] at h
  exact h.2

/-- Neighbour set membership is neighbour list membership. -/
theorem mem_neighbors_iff {p q : Position} {maxRow maxCol : Nat} :
    q ∈ p.neighbors maxRow maxCol ↔ q ∈ p.neighborsList maxRow maxCol := by
  simp [Position.neighbors]

/-- The neighbour list has at most eight entries. -/
theorem neighborsList_length_le (p : Position) (maxRow maxCol : Nat) :
    (p.neighborsList maxRow maxCol).length ≤ 8 := by
  have h1 := List.length_filter_le (fun q => inGrid maxRow maxCol q)
    (neighborOffsets.map (fun d => Position.mk (p.row + d.1) (p.col + d.2)))
  simpa [Position.neighborsList, neighborOffsets] using h1

/-- Grid membership is exactly the bounds check. -/
theorem mem_allCells {rows cols : Nat} {p : Position} :
    p ∈ allCells rows cols ↔ inGrid rows cols p = true := by
  obtain ⟨r, c⟩ := p
  rw [inGrid_iff]
  simp only [allCells, Finset.mem_image, Finset.mem_product, Finset.mem_range]
  constructor
  · rintro ⟨⟨a, b⟩, ⟨ha, hb⟩, heq⟩
    rw [Position.mk.injEq] at heq
    obtain ⟨h1, h2⟩ := heq
    refine ⟨by omega, by omega, by omega, by omega⟩
  · rintro ⟨h1, h2, h3, h4⟩
    refine ⟨⟨r.toNat, c.toNat⟩, ⟨by omega, by omega⟩, ?_⟩
    rw [Position.mk.injEq]
    constructor <;> omega

/-- Neighbours are always grid cells. -/
theorem neighbors_subset_allCells (p : Position) (rows cols : Nat) :
    p.neighbors rows cols ⊆ allCells rows cols := by
  intro q hq
  exact mem_allCells.mpr (mem_neighborsList_inGrid (mem_neighbors_iff.mp hq))

/-- The grid has `rows * cols` cells. -/
theorem card_allCells (rows cols : Nat) : (allCells rows cols).card = rows * cols := by
  rw [allCells, Finset.card_image_of_injective, Finset.card_product, Finset.card_range,
    Finset.card_range]
  rintro ⟨a1, a2⟩ ⟨b1, b2⟩ hab
  simp only [Position.mk.injEq] at hab
  obtain ⟨h1, h2⟩ := hab
  rw [Prod.mk.injEq]
  constructor <;> omega

/-! ### Unfolding equations for the flood-fill loop -/

/-- Empty worklist: the loop immediately returns. -/
theorem floodAux_nil (rows cols : Nat) (flags : Finset Position) (adj : Position → Nat)
    (fuel : Nat) (rev : Finset Position) :
    floodAux rows cols flags adj fuel [] rev = some (rev, []) := by
  cases fuel <;> rfl

/-- Popping an already revealed cell skips it (`continue` in the source). -/
theorem floodAux_cons_mem (rows cols : Nat) (flags : Finset Position) (adj : Position → Nat)
    (fuel : Nat) (c : Position) (rest : List Position) (rev : Finset Position)
    (h : c ∈ rev) :
    floodAux rows cols flags adj (fuel + 1) (c :: rest) rev =
      floodAux rows cols flags adj fuel rest rev := by
  simp [floodAux, h]

/-- Popping a fresh cell reveals it and enqueues its candidates when its adjacency
count is zero. -/
theorem floodAux_cons_not_mem (rows cols : Nat) (flags : Finset Position)
    (adj : Position → Nat) (fuel : Nat) (c : Position) (rest : List Position)
    (rev : Finset Position) (h : c ∉ rev) :
    floodAux rows cols flags adj (fuel + 1) (c :: rest) rev =
      match floodAux rows cols flags adj fuel
          (if adj c = 0 then
            rest ++ floodEnqueue rows cols flags (insert c rev) c
          else rest)
          (insert c rev) with
      | none => none
      | some (r, tr) => some (r, c :: tr) := by
  simp [floodAux, h]

/-! ### The flood fill only grows the revealed set, and never reveals twice -/

/-- Trace specification of the fill: the final revealed set is the initial one plus
the trace, the trace has no duplicates (no cell is revealed twice), and every
traced cell was fresh. -/
theorem floodAux_trace (rows cols : Nat) (flags : Finset Position) (adj : Position → Nat) :
    ∀ (fuel : Nat) (wl : List Position) (rev r : Finset Position) (tr : List Position),
      floodAux rows cols flags adj fuel wl rev = some (r, tr) →
      r = rev ∪ tr.toFinset ∧ tr.Nodup ∧ ∀ q ∈ tr, q ∉ rev := by
  intro fuel
  induction fuel with
  | zero =>
    intro wl rev r tr h
    cases wl with
    | nil =>
      rw [floodAux_nil] at h
      simp only [Option.some.injEq, Prod.mk.injEq] at h
      obtain ⟨h1, h2⟩ := h
      subst h1; subst h2
      simp
    | cons c rest => exact absurd h (by simp [floodAux])
  | succ fuel ih =>
    intro wl rev r tr h
    cases wl with
    | nil =>
      rw [floodAux_nil] at h
      simp only [Option.some.injEq, Prod.mk.injEq] at h
      obtain ⟨h1, h2⟩ := h
      subst h1; subst h2
      simp
    | cons c rest =>
      by_cases hc : c ∈ rev
      · rw [floodAux_cons_mem rows cols flags adj fuel c rest rev hc] at h
        exact ih rest rev r tr h
      · rw [floodAux_cons_not_mem rows cols flags adj fuel c rest rev hc] at h
        cases hrec : floodAux rows cols flags adj fuel
            (if adj c = 0 then
              rest ++ floodEnqueue rows cols flags (insert c rev) c
            else rest)
            (insert c rev) with
        | none => rw [hrec] at h; exact absurd h (by simp)
        | some p =>
          obtain ⟨r', tr'⟩ := p
          rw [hrec] at h
          simp only [Option.some.injEq, Prod.mk.injEq] at h
          obtain ⟨h1, h2⟩ := h
          subst h1; subst h2
          obtain ⟨e1, e2, e3⟩ := ih _ _ _ _ hrec
          refine ⟨?_, ?_, ?_⟩
          · rw [e1, List.toFinset_cons, Finset.union_insert, Finset.insert_union]
          · refine List.Nodup.cons ?_ e2
            intro hmem
            exact e3 c hmem (Finset.mem_insert_self c rev)
          · intro q hq
            rcases List.mem_cons.mp hq with hq | hq
            · subst hq; exact hc
            · intro hqrev
              exact e3 q hq (Finset.mem_insert_of_mem hqrev)

/-- Every worklist entry ends up revealed. -/
theorem floodAux_wl_mem (rows cols : Nat) (flags : Finset Position) (adj : Position → Nat) :
    ∀ (fuel : Nat) (wl : List Position) (rev r : Finset Position) (tr : List Position),
      floodAux rows cols flags adj fuel wl rev = some (r, tr) →
      ∀ w ∈ wl, w ∈ r := by
  intro fuel
  induction fuel with
  | zero =>
    intro wl rev r tr h w hw
    cases wl with
    | nil => exact absurd hw (List.not_mem_nil w)
    | cons c rest => exact absurd h (by simp [floodAux])
  | succ fuel ih =>
    intro wl rev r tr h w hw
    cases wl with
    | nil => exact absurd hw (List.not_mem_nil w)
    | cons c rest =>
      by_cases hc : c ∈ rev
      · rw [floodAux_cons_mem rows cols flags adj fuel c rest rev hc] at h
        rcases List.mem_cons.mp hw with hw | hw
        · subst hw
          have := (floodAux_trace rows cols flags adj fuel rest rev r tr h).1
          rw [this]
          exact Finset.mem_union_left _ hc
        · exact ih rest rev r tr h w hw
      · rw [floodAux_cons_not_mem rows cols flags adj fuel c rest rev hc] at h
        cases hrec : floodAux rows cols flags adj fuel
            (if adj c = 0 then
              rest ++ floodEnqueue rows cols flags (insert c rev) c
            else rest)
            (insert c rev) with
        | none => rw [hrec] at h; exact absurd h (by simp)
        | some p =>
          obtain ⟨r', tr'⟩ := p
          rw [hrec] at h
          simp only [Option.some.injEq, Prod.mk.injEq] at h
          obtain ⟨h1, h2⟩ := h
          subst h1
          rcases List.mem_cons.mp hw with hw | hw
          · subst hw
            have := (floodAux_trace rows cols flags adj fuel _ _ _ _ hrec).1
            rw [this]
            exact Finset.mem_union_left _ (Finset.mem_insert_self _ rev)
          · refine ih _ _ _ _ hrec w ?_
            by_cases hadj : adj c = 0
            · rw [if_pos hadj]
              exact List.mem_append_left _ hw
            · rw [if_neg hadj]
              exact hw

/-! ### The flood fill computes a reachability closure -/

/-- Reachability along the flood fill of one `reveal_cell` call, relative to the
flags `flags` and the previously revealed set `rev0` at the start of the call:
the start cell itself, and inductively every unflagged, not previously revealed
neighbour of a reached cell that is unflagged, not previously revealed, and has
cached adjacency count zero. -/
inductive FillReach (rows cols : Nat) (flags rev0 : Finset Position) (adj : Position → Nat)
    (start : Position) : Position → Prop where
  | base : FillReach rows cols flags rev0 adj start start
  | step (p q : Position) :
      FillReach rows cols flags rev0 adj start p →
      p ∉ flags → p ∉ rev0 → adj p = 0 →
      q ∈ p.neighbors rows cols → q ∉ flags → q ∉ rev0 →
      FillReach rows cols flags rev0 adj start q

/-- Soundness: every revealed cell was previously revealed or is fill-reachable. -/
theorem floodAux_sound (rows cols : Nat) (flags : Finset Position) (adj : Position → Nat)
    (rev0 : Finset Position) (start : Position) :
    ∀ (fuel : Nat) (wl : List Position) (rev r : Finset Position) (tr : List Position),
      floodAux rows cols flags adj fuel wl rev = some (r, tr) →
      rev0 ⊆ rev →
      (∀ w ∈ wl, w ∉ flags ∧ w ∉ rev0 ∧ FillReach rows cols flags rev0 adj start w) →
      (∀ p ∈ rev, p ∈ rev0 ∨ FillReach rows cols flags rev0 adj start p) →
      ∀ p ∈ r, p ∈ rev0 ∨ FillReach rows cols flags rev0 adj start p := by
  intro fuel
  induction fuel with
  | zero =>
    intro wl rev r tr h hsub hwl hrev p hp
    cases wl with
    | nil =>
      rw [floodAux_nil] at h
      simp only [Option.some.injEq, Prod.mk.injEq] at h
      obtain ⟨h1, _⟩ := h
      subst h1
      exact hrev p hp
    | cons c rest => exact absurd h (by simp [floodAux])
  | succ fuel ih =>
    intro wl rev r tr h hsub hwl hrev p hp
    cases wl with
    | nil =>
      rw [floodAux_nil] at h
      simp only [Option.some.injEq, Prod.mk.injEq] at h
      obtain ⟨h1, _⟩ := h
      subst h1
      exact hrev p hp
    | cons c rest =>
      by_cases hc : c ∈ rev
      · rw [floodAux_cons_mem rows cols flags adj fuel c rest rev hc] at h
        exact ih rest rev r tr h hsub (fun w hw => hwl w (List.mem_cons_of_mem c hw)) hrev p hp
      · rw [floodAux_cons_not_mem rows cols flags adj fuel c rest rev hc] at h
        cases hrec : floodAux rows cols flags adj fuel
            (if adj c = 0 then
              rest ++ floodEnqueue rows cols flags (insert c rev) c
            else rest)
            (insert c rev) with
        | none => rw [hrec] at h; exact absurd h (by simp)
        | some pr =>
          obtain ⟨r', tr'⟩ := pr
          rw [hrec] at h
          simp only [Option.some.injEq, Prod.mk.injEq] at h
          obtain ⟨h1, _⟩ := h
          subst h1
          obtain ⟨hcF, hc0, hcR⟩ := hwl c (List.mem_cons_self c rest)
          refine ih _ _ _ _ hrec (hsub.trans (Finset.subset_insert c rev)) ?_ ?_ p hp
          · intro w hw
            by_cases hadj : adj c = 0
            · rw [if_pos hadj] at hw
              rcases List.mem_append.mp hw with hw | hw
              · exact hwl w (List.mem_cons_of_mem c hw)
              · simp only [floodEnqueue, List.mem_filter, Bool.and_eq_true,
                  decide_eq_true_eq] at hw
                obtain ⟨hwn, hwrev, hwF⟩ := hw
                have hwrev0 : w ∉ rev0 := fun hww =>
                  hwrev (Finset.mem_insert_of_mem (hsub hww))
                exact ⟨hwF, hwrev0,
                  FillReach.step c w hcR hcF hc0 hadj (mem_neighbors_iff.mpr hwn) hwF hwrev0⟩
            · rw [if_neg hadj] at hw
              exact hwl w (List.mem_cons_of_mem c hw)
          · intro x hx
            rcases Finset.mem_insert.mp hx with hx | hx
            · subst hx
              exact Or.inr hcR
            · exact hrev x hx

/-- Closedness: in the final revealed set, every fresh zero-adjacency unflagged
cell has all its unflagged neighbours revealed. -/
theorem floodAux_closed (rows cols : Nat) (flags : Finset Position) (adj : Position → Nat)
    (rev0 : Finset Position) :
    ∀ (fuel : Nat) (wl : List Position) (rev r : Finset Position) (tr : List Position),
      floodAux rows cols flags adj fuel wl rev = some (r, tr) →
      (∀ p ∈ rev, p ∉ rev0 → adj p = 0 → p ∉ flags →
        ∀ q ∈ p.neighbors rows cols, q ∉ flags → (q ∈ rev ∨ q ∈ wl)) →
      ∀ p ∈ r, p ∉ rev0 → adj p = 0 → p ∉ flags →
        ∀ q ∈ p.neighbors rows cols, q ∉ flags → q ∈ r := by
  intro fuel
  induction fuel with
  | zero =>
    intro wl rev r tr h hcl
    cases wl with
    | nil =>
      rw [floodAux_nil] at h
      simp only [Option.some.injEq, Prod.mk.injEq] at h
      obtain ⟨h1, _⟩ := h
      subst h1
      intro p hp hp0 hpa hpF q hq hqF
      rcases hcl p hp hp0 hpa hpF q hq hqF with hq' | hq'
      · exact hq'
      · exact absurd hq' (List.not_mem_nil q)
    | cons c rest => exact absurd h (by simp [floodAux])
  | succ fuel ih =>
    intro wl rev r tr h hcl
    cases wl with
    | nil =>
      rw [floodAux_nil] at h
      simp only [Option.some.injEq, Prod.mk.injEq] at h
      obtain ⟨h1, _⟩ := h
      subst h1
      intro p hp hp0 hpa hpF q hq hqF
      rcases hcl p hp hp0 hpa hpF q hq hqF with hq' | hq'
      · exact hq'
      · exact absurd hq' (List.not_mem_nil q)
    | cons c rest =>
      by_cases hc : c ∈ rev
      · rw [floodAux_cons_mem rows cols flags adj fuel c rest rev hc] at h
        refine ih rest rev r tr h ?_
        intro p hp hp0 hpa hpF q hq hqF
        rcases hcl p hp hp0 hpa hpF q hq hqF with hq' | hq'
        · exact Or.inl hq'
        · rcases List.mem_cons.mp hq' with hq' | hq'
          · subst hq'
            exact Or.inl hc
          · exact Or.inr hq'
      · rw [floodAux_cons_not_mem rows cols flags adj fuel c rest rev hc] at h
        cases hrec : floodAux rows cols flags adj fuel
            (if adj c = 0 then
              rest ++ floodEnqueue rows cols flags (insert c rev) c
            else rest)
            (insert c rev) with
        | none => rw [hrec] at h; exact absurd h (by simp)
        | some pr =>
          obtain ⟨r', tr'⟩ := pr
          rw [hrec] at h
          simp only [Option.some.injEq, Prod.mk.injEq] at h
          obtain ⟨h1, _⟩ := h
          subst h1
          refine ih _ _ _ _ hrec ?_
          intro p hp hp0 hpa hpF q hq hqF
          rcases Finset.mem_insert.mp hp with hp | hp
          · -- p is the freshly revealed head; it only owes its neighbours when its
            -- adjacency count is zero, in which case they were enqueued or already in.
            subst hp
            rw [if_pos hpa]
            by_cases hqrev : q ∈ insert p rev
            · exact Or.inl hqrev
            · refine Or.inr (List.mem_append_right _ ?_)
              simp only [floodEnqueue, List.mem_filter, Bool.and_eq_true, decide_eq_true_eq]
              exact ⟨mem_neighbors_iff.mp hq, hqrev, hqF⟩
          · rcases hcl p hp hp0 hpa hpF q hq hqF with hq' | hq'
            · exact Or.inl (Finset.mem_insert_of_mem hq')
            · rcases List.mem_cons.mp hq' with hq' | hq'
              · subst hq'
                exact Or.inl (Finset.mem_insert_self q rev)
              · by_cases hadj : adj c = 0
                · rw [if_pos hadj]
                  exact Or.inr (List.mem_append_left _ hq')
                · rw [if_neg hadj]
                  exact Or.inr hq'

/-! ### Termination: the supplied fuel always suffices -/

/-- Fuel sufficiency: `9 * |candidate cells not yet revealed| + |worklist|` loop
iterations always finish the fill (each reveal pays for at most eight enqueues). -/
theorem floodAux_fuel (rows cols : Nat) (flags : Finset Position) (adj : Position → Nat) :
    ∀ (fuel : Nat) (wl : List Position) (rev : Finset Position),
      9 * (((allCells rows cols ∪ wl.toFinset) \ rev).card) + wl.length ≤ fuel →
      ∃ p, floodAux rows cols flags adj fuel wl rev = some p := by
  intro fuel
  induction fuel with
  | zero =>
    intro wl rev hfuel
    cases wl with
    | nil => exact ⟨(rev, []), floodAux_nil rows cols flags adj 0 rev⟩
    | cons c rest => simp only [List.length_cons] at hfuel; omega
  | succ fuel ih =>
    intro wl rev hfuel
    cases wl with
    | nil => exact ⟨(rev, []), floodAux_nil rows cols flags adj (fuel + 1) rev⟩
    | cons c rest =>
      rw [List.length_cons] at hfuel
      by_cases hc : c ∈ rev
      · -- skip: the worklist shrinks, the unrevealed pool does not grow
        have hsub : (allCells rows cols ∪ rest.toFinset) \ rev ⊆
            (allCells rows cols ∪ (c :: rest).toFinset) \ rev := by
          intro x hx
          rw [Finset.mem_sdiff] at hx ⊢
          refine ⟨?_, hx.2⟩
          rcases Finset.mem_union.mp hx.1 with hx' | hx'
          · exact Finset.mem_union_left _ hx'
          · refine Finset.mem_union_right _ ?_
            rw [List.toFinset_cons]
            exact Finset.mem_insert_of_mem hx'
        have hcard := Finset.card_le_card hsub
        obtain ⟨p, hp⟩ := ih rest rev (by omega)
        exact ⟨p, by rw [floodAux_cons_mem rows cols flags adj fuel c rest rev hc]; exact hp⟩
      · -- reveal: the head leaves the unrevealed pool, paying for at most 8 enqueues
        set next := (if adj c = 0 then
            rest ++ floodEnqueue rows cols flags (insert c rev) c
          else rest) with hnext
        have hsub : (allCells rows cols ∪ next.toFinset) \ insert c rev ⊆
            (((allCells rows cols ∪ (c :: rest).toFinset) \ rev).erase c) := by
          intro x hx
          rw [Finset.mem_sdiff] at hx
          obtain ⟨hx1, hx2⟩ := hx
          rw [Finset.mem_insert] at hx2
          push_neg at hx2
          obtain ⟨hxc, hxrev⟩ := hx2
          rw [Finset.mem_erase, Finset.mem_sdiff]
          refine ⟨hxc, ?_, hxrev⟩
          rcases Finset.mem_union.mp hx1 with hx' | hx'
          · exact Finset.mem_union_left _ hx'
          · rw [hnext] at hx'
            by_cases hadj : adj c = 0
            · rw [if_pos hadj, List.mem_toFinset, List.mem_append] at hx'
              rcases hx' with hx' | hx'
              · refine Finset.mem_union_right _ ?_
                rw [List.toFinset_cons]
                exact Finset.mem_insert_of_mem (List.mem_toFinset.mpr hx')
              · -- enqueued cells are grid cells
                simp only [floodEnqueue, List.mem_filter] at hx'
                exact Finset.mem_union_left _ (mem_allCells.mpr (mem_neighborsList_inGrid hx'.1))
            · rw [if_neg hadj] at hx'
              refine Finset.mem_union_right _ ?_
              rw [List.toFinset_cons]
              exact Finset.mem_insert_of_mem hx'
        have hcmem : c ∈ (allCells rows cols ∪ (c :: rest).toFinset) \ rev := by
          rw [Finset.mem_sdiff]
          refine ⟨Finset.mem_union_right _ ?_, hc⟩
          rw [List.toFinset_cons]
          exact Finset.mem_insert_self c rest.toFinset
        have h1 := Finset.card_le_card hsub
        have h2 := Finset.card_erase_add_one hcmem
        have hlen : next.length ≤ rest.length + 8 := by
          rw [hnext]
          by_cases hadj : adj c = 0
          · rw [if_pos hadj, List.length_append]
            have := neighborsList_length_le c rows cols
            have hfl := List.length_filter_le
              (fun q => decide (q ∉ insert c rev) && decide (q ∉ flags))
              (c.neighborsList rows cols)
            simp only [floodEnqueue]
            omega
          · rw [if_neg hadj]
            omega
        obtain ⟨p, hp⟩ := ih next (insert c rev) (by omega)
        refine ⟨(p.1, c :: p.2), ?_⟩
        rw [floodAux_cons_not_mem rows cols flags adj fuel c rest rev hc, ← hnext, hp]

/-- The fuel `reveal_cell` supplies always completes the fill. -/
theorem floodAux_total (g : MinesweeperGame) (pos : Position) :
    ∃ p, floodAux g.rows g.cols g.flags g.adjacent_cache (floodFuel g) [pos] g.revealed
      = some p := by
  refine floodAux_fuel g.rows g.cols g.flags g.adjacent_cache (floodFuel g) [pos] g.revealed ?_
  have h1 : ((allCells g.rows g.cols ∪ [pos].toFinset) \ g.revealed).card ≤
      g.rows * g.cols + 1 := by
    calc ((allCells g.rows g.cols ∪ [pos].toFinset) \ g.revealed).card
        ≤ (allCells g.rows g.cols ∪ [pos].toFinset).card :=
          Finset.card_le_card (Finset.sdiff_subset)
      _ ≤ (allCells g.rows g.cols).card + [pos].toFinset.card := Finset.card_union_le _ _
      _ ≤ g.rows * g.cols + 1 := by
          rw [card_allCells]
          simp
  simp only [floodFuel, List.length_cons, List.length_nil]
  omega

/-- Full characterisation of one fill: the result is exactly the previously
revealed set plus the fill-reachable cells. -/
theorem floodAux_result_iff (rows cols : Nat) (flags : Finset Position)
    (adj : Position → Nat) (rev0 : Finset Position) (start : Position) (fuel : Nat)
    (r : Finset Position) (tr : List Position)
    (hF : start ∉ flags) (h0 : start ∉ rev0)
    (h : floodAux rows cols flags adj fuel [start] rev0 = some (r, tr)) :
    ∀ q, q ∈ r ↔ q ∈ rev0 ∨ FillReach rows cols flags rev0 adj start q := by
  intro q
  constructor
  · intro hq
    refine floodAux_sound rows cols flags adj rev0 start fuel [start] rev0 r tr h
      (Finset.Subset.refl rev0) ?_ (fun p hp => Or.inl hp) q hq
    intro w hw
    rcases List.mem_cons.mp hw with hw | hw
    · subst hw
      exact ⟨hF, h0, FillReach.base⟩
    · exact absurd hw (List.not_mem_nil w)
  · intro hq
    rcases hq with hq | hq
    · have := (floodAux_trace rows cols flags adj fuel [start] rev0 r tr h).1
      rw [this]
      exact Finset.mem_union_left _ hq
    · have hstart : start ∈ r :=
        floodAux_wl_mem rows cols flags adj fuel [start] rev0 r tr h start
          (List.mem_cons_self start [])
      have hclosed := floodAux_closed rows cols flags adj rev0 fuel [start] rev0 r tr h
        (fun p hp hp0 => absurd hp hp0)
      induction hq with
      | base => exact hstart
      | step p x hp hpF hp0 hpa hx hxF hx0 ihp =>
        exact hclosed p ihp hp0 hpa hpF x hx hxF

/-! ### Case analysis of `reveal_cell` -/

/-- Unfolding of the branches of `reveal_cell`, relative to the state after lazy
mine placement. -/
theorem reveal_cell_cases (g0 : MinesweeperGame) (pos : Position)
    (sample : Finset Position) (now : Int) :
    (((g0.afterInit pos sample now).state ≠ GameState.playing ∧
        (g0.afterInit pos sample now).state ≠ GameState.ready) ∨
        pos ∈ (g0.afterInit pos sample now).revealed ∨
        pos ∈ (g0.afterInit pos sample now).flags) ∧
      g0.reveal_cell pos sample now = (false, g0.afterInit pos sample now) ∨
    (pos ∉ (g0.afterInit pos sample now).revealed ∧
        pos ∉ (g0.afterInit pos sample now).flags ∧
        pos ∈ (g0.afterInit pos sample now).mines) ∧
      g0.reveal_cell pos sample now =
        (false,
          { g0.afterInit pos sample now with
            state := GameState.lost
            elapsed_time := now - (g0.afterInit pos sample now).start_time }) ∨
    ∃ r tr,
      pos ∉ (g0.afterInit pos sample now).revealed ∧
      pos ∉ (g0.afterInit pos sample now).flags ∧
      pos ∉ (g0.afterInit pos sample now).mines ∧
      floodAux (g0.afterInit pos sample now).rows (g0.afterInit pos sample now).cols
        (g0.afterInit pos sample now).flags (g0.afterInit pos sample now).adjacent_cache
        (floodFuel (g0.afterInit pos sample now)) [pos]
        (g0.afterInit pos sample now).revealed = some (r, tr) ∧
      g0.reveal_cell pos sample now =
        (true, (g0.afterInit pos sample now).fillResult now r tr) := by
  set g := g0.afterInit pos sample now with hg
  by_cases h1 : (g.state ≠ GameState.playing ∧ g.state ≠ GameState.ready) ∨
      pos ∈ g.revealed ∨ pos ∈ g.flags
  · refine Or.inl ⟨h1, ?_⟩
    rw [MinesweeperGame.reveal_cell, ← hg, if_pos h1]
  · push_neg at h1
    obtain ⟨hstate, hrev, hflag⟩ := h1
    by_cases h2 : pos ∈ g.mines
    · refine Or.inr (Or.inl ⟨⟨hrev, hflag, h2⟩, ?_⟩)
      rw [MinesweeperGame.reveal_cell, ← hg, if_neg, if_pos h2]
      intro hcon
      rcases hcon with hcon | hcon | hcon
      · exact hcon.1 (by
          by_cases hp : g.state = GameState.playing
          · exact absurd hp hcon.1
          · exact absurd (hstate hp) hcon.2) |>.elim
      · exact hrev hcon
      · exact hflag hcon
    · obtain ⟨⟨r, tr⟩, hfl⟩ := floodAux_total g pos
      refine Or.inr (Or.inr ⟨r, tr, hrev, hflag, h2, hfl, ?_⟩)
      rw [MinesweeperGame.reveal_cell, ← hg, if_neg, if_neg h2, hfl]
      intro hcon
      rcases hcon with hcon | hcon | hcon
      · exact (by
          by_cases hp : g.state = GameState.playing
          · exact absurd hp hcon.1
          · exact absurd (hstate hp) hcon.2)
      · exact hrev hcon
      · exact hflag hcon

/-! ### Field bookkeeping for `afterInit` and `fillResult` -/

/-- Lazy initialisation does not change the revealed set. -/
theorem afterInit_revealed (g0 : MinesweeperGame) (pos : Position) (sample : Finset Position)
    (now : Int) : (g0.afterInit pos sample now).revealed = g0.revealed := by
  unfold MinesweeperGame.afterInit MinesweeperGame.initialize_mines
  split <;> rfl

/-- Lazy initialisation does not change the flag set. -/
theorem afterInit_flags (g0 : MinesweeperGame) (pos : Position) (sample : Finset Position)
    (now : Int) : (g0.afterInit pos sample now).flags = g0.flags := by
  unfold MinesweeperGame.afterInit MinesweeperGame.initialize_mines
  split <;> rfl

/-- Lazy initialisation does not change the grid dimensions. -/
theorem afterInit_dims (g0 : MinesweeperGame) (pos : Position) (sample : Finset Position)
    (now : Int) : (g0.afterInit pos sample now).rows = g0.rows ∧
      (g0.afterInit pos sample now).cols = g0.cols := by
  unfold MinesweeperGame.afterInit MinesweeperGame.initialize_mines
  split <;> exact ⟨rfl, rfl⟩

/-- On a game that is not ready, lazy initialisation is the identity. -/
theorem afterInit_not_ready {g0 : MinesweeperGame} (pos : Position) (sample : Finset Position)
    (now : Int) (h : g0.state ≠ GameState.ready) : g0.afterInit pos sample now = g0 := by
  unfold MinesweeperGame.afterInit
  exact if_neg h

/-- Revealed set after the win check. -/
theorem fillResult_revealed (g : MinesweeperGame) (now : Int) (r : Finset Position)
    (tr : List Position) : (g.fillResult now r tr).revealed = r := by
  simp only [MinesweeperGame.fillResult]
  split <;> rfl

/-- Mines after the win check. -/
theorem fillResult_mines (g : MinesweeperGame) (now : Int) (r : Finset Position)
    (tr : List Position) : (g.fillResult now r tr).mines = g.mines := by
  simp only [MinesweeperGame.fillResult]
  split <;> rfl

/-- Dimensions after the win check. -/
theorem fillResult_dims (g : MinesweeperGame) (now : Int) (r : Finset Position)
    (tr : List Position) : (g.fillResult now r tr).rows = g.rows ∧
      (g.fillResult now r tr).cols = g.cols := by
  simp only [MinesweeperGame.fillResult]
  split <;> exact ⟨rfl, rfl⟩

/-- State after the win check. -/
theorem fillResult_state (g : MinesweeperGame) (now : Int) (r : Finset Position)
    (tr : List Position) : (g.fillResult now r tr).state =
      if r.card + g.mines.card = g.rows * g.cols then GameState.won else g.state := by
  simp only [MinesweeperGame.fillResult]
  split <;> rfl

/-- Flags after the win check. -/
theorem fillResult_flags (g : MinesweeperGame) (now : Int) (r : Finset Position)
    (tr : List Position) : (g.fillResult now r tr).flags =
      if r.card + g.mines.card = g.rows * g.cols then g.mines else g.flags := by
  simp only [MinesweeperGame.fillResult]
  split <;> rfl

/-- Elapsed time after the win check. -/
theorem fillResult_elapsed (g : MinesweeperGame) (now : Int) (r : Finset Position)
    (tr : List Position) : (g.fillResult now r tr).elapsed_time =
      if r.card + g.mines.card = g.rows * g.cols then now - g.start_time
      else g.elapsed_time := by
  simp only [MinesweeperGame.fillResult]
  split <;> rfl

/-- Cell states after the win check. -/
theorem fillResult_cell_states (g : MinesweeperGame) (now : Int) (r : Finset Position)
    (tr : List Position) : (g.fillResult now r tr).cell_states =
      fun q => if q ∈ tr then CellState.revealed else g.cell_states q := by
  simp only [MinesweeperGame.fillResult]
  split <;> rfl

/-! ### Consequences for single reveals -/

/-- A reveal never forgets a revealed cell. -/
theorem reveal_revealed_mono (g0 : MinesweeperGame) (pos : Position)
    (sample : Finset Position) (now : Int) :
    g0.revealed ⊆ (g0.reveal_cell pos sample now).2.revealed := by
  rcases reveal_cell_cases g0 pos sample now with ⟨_, heq⟩ | ⟨_, heq⟩ | ⟨r, tr, _, _, _, hfl, heq⟩
  · rw [heq]
    show g0.revealed ⊆ (g0.afterInit pos sample now).revealed
    rw [afterInit_revealed]
  · rw [heq]
    show g0.revealed ⊆ (g0.afterInit pos sample now).revealed
    rw [afterInit_revealed]
  · rw [heq]
    show g0.revealed ⊆ ((g0.afterInit pos sample now).fillResult now r tr).revealed
    rw [fillResult_revealed]
    have htr := (floodAux_trace _ _ _ _ _ _ _ _ _ hfl).1
    rw [htr, afterInit_revealed]
    exact Finset.subset_union_left

/-- A successful reveal reveals the clicked cell. -/
theorem reveal_true_pos_mem (g0 : MinesweeperGame) (pos : Position)
    (sample : Finset Position) (now : Int)
    (h : (g0.reveal_cell pos sample now).1 = true) :
    pos ∈ (g0.reveal_cell pos sample now).2.revealed := by
  rcases reveal_cell_cases g0 pos sample now with ⟨_, heq⟩ | ⟨_, heq⟩ | ⟨r, tr, _, _, _, hfl, heq⟩
  · rw [heq] at h
    exact absurd h (by simp)
  · rw [heq] at h
    exact absurd h (by simp)
  · rw [heq]
    show pos ∈ ((g0.afterInit pos sample now).fillResult now r tr).revealed
    rw [fillResult_revealed]
    exact floodAux_wl_mem _ _ _ _ _ _ _ _ _ hfl pos (List.mem_cons_self pos [])

/-- A successful reveal on a playing game leaves it playing or won. -/
theorem reveal_true_state (g0 : MinesweeperGame) (pos : Position)
    (sample : Finset Position) (now : Int) (hst : g0.state = GameState.playing)
    (h : (g0.reveal_cell pos sample now).1 = true) :
    (g0.reveal_cell pos sample now).2.state = GameState.playing ∨
      (g0.reveal_cell pos sample now).2.state = GameState.won := by
  have hnr : g0.state ≠ GameState.ready := by rw [hst]; intro hcon; exact absurd hcon (by simp)
  rcases reveal_cell_cases g0 pos sample now with ⟨_, heq⟩ | ⟨_, heq⟩ | ⟨r, tr, _, _, _, hfl, heq⟩
  · rw [heq] at h
    exact absurd h (by simp)
  · rw [heq] at h
    exact absurd h (by simp)
  · rw [heq]
    show ((g0.afterInit pos sample now).fillResult now r tr).state = GameState.playing ∨
      ((g0.afterInit pos sample now).fillResult now r tr).state = GameState.won
    rw [fillResult_state]
    split
    · exact Or.inr rfl
    · rw [afterInit_not_ready pos sample now hnr, hst]
      exact Or.inl rfl

/-- A reveal on a game that is not ready cannot make it ready. -/
theorem reveal_not_ready (g0 : MinesweeperGame) (pos : Position)
    (sample : Finset Position) (now : Int) (hst : g0.state ≠ GameState.ready) :
    (g0.reveal_cell pos sample now).2.state ≠ GameState.ready := by
  rcases reveal_cell_cases g0 pos sample now with ⟨_, heq⟩ | ⟨_, heq⟩ | ⟨r, tr, _, _, _, hfl, heq⟩
  · rw [heq]
    show (g0.afterInit pos sample now).state ≠ GameState.ready
    rw [afterInit_not_ready pos sample now hst]
    exact hst
  · rw [heq]
    intro hcon
    exact absurd hcon (by simp)
  · rw [heq]
    show ((g0.afterInit pos sample now).fillResult now r tr).state ≠ GameState.ready
    rw [fillResult_state]
    split
    · intro hcon
      exact absurd hcon (by simp)
    · rw [afterInit_not_ready pos sample now hst]
      exact hst

/-- A reveal does not change the grid dimensions. -/
theorem reveal_dims (g0 : MinesweeperGame) (pos : Position)
    (sample : Finset Position) (now : Int) :
    (g0.reveal_cell pos sample now).2.rows = g0.rows ∧
      (g0.reveal_cell pos sample now).2.cols = g0.cols := by
  rcases reveal_cell_cases g0 pos sample now with ⟨_, heq⟩ | ⟨_, heq⟩ | ⟨r, tr, _, _, _, hfl, heq⟩
  · rw [heq]
    exact afterInit_dims g0 pos sample now
  · rw [heq]
    exact afterInit_dims g0 pos sample now
  · rw [heq]
    show ((g0.afterInit pos sample now).fillResult now r tr).rows = g0.rows ∧
      ((g0.afterInit pos sample now).fillResult now r tr).cols = g0.cols
    rw [(fillResult_dims _ _ _ _).1, (fillResult_dims _ _ _ _).2]
    exact afterInit_dims g0 pos sample now

/-! ### Branch equations of `reveal_cell` -/

/-- Reveal on an ended game: no-op returning false. -/
theorem reveal_cell_ended (g : MinesweeperGame) (pos : Position) (sample : Finset Position)
    (now : Int) (h : g.state = GameState.won ∨ g.state = GameState.lost) :
    g.reveal_cell pos sample now = (false, g) := by
  rcases h with h | h <;>
    simp [MinesweeperGame.reveal_cell, MinesweeperGame.afterInit, h]

/-- Reveal of an already revealed or flagged cell on a playing game: no-op
returning false. -/
theorem reveal_cell_noop (g : MinesweeperGame) (pos : Position) (sample : Finset Position)
    (now : Int) (h : g.state = GameState.playing)
    (hpos : pos ∈ g.revealed ∨ pos ∈ g.flags) :
    g.reveal_cell pos sample now = (false, g) := by
  rcases hpos with hp | hp <;>
    simp [MinesweeperGame.reveal_cell, MinesweeperGame.afterInit, h, hp]

/-- Reveal of a fresh mine on a playing game: transition to lost, freeze the
elapsed time, return false; every other field is untouched. -/
theorem reveal_cell_mine (g : MinesweeperGame) (pos : Position) (sample : Finset Position)
    (now : Int) (h : g.state = GameState.playing) (h1 : pos ∉ g.revealed)
    (h2 : pos ∉ g.flags) (h3 : pos ∈ g.mines) :
    g.reveal_cell pos sample now =
      (false, { g with state := GameState.lost, elapsed_time := now - g.start_time }) := by
  simp [MinesweeperGame.reveal_cell, MinesweeperGame.afterInit, h, h1, h2, h3]

/-- Reveal of a fresh safe cell on a playing game: the flood fill runs to
completion and the win check is applied; the call returns true. -/
theorem reveal_cell_fill (g : MinesweeperGame) (pos : Position) (sample : Finset Position)
    (now : Int) (h : g.state = GameState.playing) (h1 : pos ∉ g.revealed)
    (h2 : pos ∉ g.flags) (h3 : pos ∉ g.mines) :
    ∃ r tr,
      floodAux g.rows g.cols g.flags g.adjacent_cache (floodFuel g) [pos] g.revealed
        = some (r, tr) ∧
      g.reveal_cell pos sample now = (true, g.fillResult now r tr) := by
  have hnr : g.state ≠ GameState.ready := by rw [h]; exact fun hcon => by cases hcon
  have ha : g.afterInit pos sample now = g := afterInit_not_ready pos sample now hnr
  rcases reveal_cell_cases g pos sample now with ⟨hc, heq⟩ | ⟨hc, heq⟩ |
      ⟨r, tr, _, _, _, hfl, heq⟩
  · rw [ha] at hc
    rcases hc with hc | hc | hc
    · exact absurd h hc.1
    · exact absurd hc h1
    · exact absurd hc h2
  · rw [ha] at hc
    exact absurd hc.2.2 h3
  · rw [ha] at hfl heq
    exact ⟨r, tr, hfl, heq⟩

/-! ### C1: safe first click -/

/-- Mines stored by initialisation are exactly the sample. -/
theorem initialize_mines_mines (g : MinesweeperGame) (first_click : Position)
    (sample : Finset Position) (now : Int) :
    (g.initialize_mines first_click sample now).mines = sample := rfl

/-- C1 (confirmed).  Safe first click: for every grid, every in-bounds first-click
position and every outcome of the random sampling, after `initialize_mines` neither
the first click nor any of its neighbours is in the mine set. -/
theorem claim_C1_safe_first_click (g : MinesweeperGame) (first_click : Position)
    (sample : Finset Position) (now : Int)
    (_hin : inGrid g.rows g.cols first_click = true)
    (hs : ValidSample g first_click sample) :
    first_click ∉ (g.initialize_mines first_click sample now).mines ∧
      ∀ q ∈ first_click.neighbors g.rows g.cols,
        q ∉ (g.initialize_mines first_click sample now).mines := by
  rw [initialize_mines_mines]
  constructor
  · intro hmem
    have := hs.1 hmem
    rw [MinesweeperGame.availableCells, Finset.mem_sdiff] at this
    exact this.2 (Finset.mem_insert_self first_click _)
  · intro q hq hmem
    have := hs.1 hmem
    rw [MinesweeperGame.availableCells, Finset.mem_sdiff] at this
    exact this.2 (Finset.mem_insert_of_mem hq)

/-- C1 witness: a concrete sample for the beginner board, first click (4, 4). -/
def beginnerSample : Finset Position :=
  { ⟨0, 0⟩, ⟨0, 1⟩, ⟨0, 2⟩, ⟨0, 3⟩, ⟨0, 4⟩, ⟨0, 5⟩, ⟨0, 6⟩, ⟨0, 7⟩, ⟨0, 8⟩, ⟨1, 0⟩ }

/-- C1 witness: the theorem applied to the beginner preset with the concrete sample. -/
theorem claim_C1_witness :
    (⟨4, 4⟩ : Position) ∉
      ((MinesweeperGame.new 9 9 10).initialize_mines ⟨4, 4⟩ beginnerSample 0).mines :=
  (claim_C1_safe_first_click (MinesweeperGame.new 9 9 10) ⟨4, 4⟩ beginnerSample 0
    (by decide) ⟨by decide, by decide⟩).1

/-! ### C6: number of mines placed -/

/-- C6 (confirmed).  The number of mines placed equals
`min(total_mines, grid_cells - safe_zone_size)`. -/
theorem claim_C6_mine_count (g : MinesweeperGame) (first_click : Position)
    (sample : Finset Position) (now : Int)
    (hin : inGrid g.rows g.cols first_click = true)
    (hs : ValidSample g first_click sample) :
    (g.initialize_mines first_click sample now).mines.card =
      min g.total_mines (g.rows * g.cols - (g.safeZone first_click).card) := by
  rw [initialize_mines_mines, hs.2]
  have hsub : g.safeZone first_click ⊆ allCells g.rows g.cols := by
    rw [MinesweeperGame.safeZone, Finset.insert_subset_iff]
    exact ⟨mem_allCells.mpr hin, neighbors_subset_allCells first_click g.rows g.cols⟩
  rw [MinesweeperGame.availableCells, Finset.card_sdiff hsub, card_allCells]

/-- C6 witness: on the beginner preset with first click (4, 4) exactly ten mines
are placed. -/
theorem claim_C6_witness :
    ((MinesweeperGame.new 9 9 10).initialize_mines ⟨4, 4⟩ beginnerSample 0).mines.card
      = 10 := by
  rw [claim_C6_mine_count (MinesweeperGame.new 9 9 10) ⟨4, 4⟩ beginnerSample 0
    (by decide) ⟨by decide, by decide⟩]
  decide

/-! ### C7: toggle_flag is its own inverse -/

/-- Toggling a singleton twice by symmetric difference restores the set. -/
theorem symmDiff_singleton_twice (s : Finset Position) (a : Position) :
    symmDiff (symmDiff s {a}) {a} = s := by
  ext x
  simp only [Finset.mem_symmDiff, Finset.mem_singleton]
  tauto

/-- C7 (confirmed).  `toggle_flag` is a no-op on revealed cells or outside the
playing state, and applying it twice to a hidden cell of a playing game restores
both the flag set and that cell's state (the latter under the engine's standing
consistency between `cell_states` and `flags`, which holds in every reachable
playing state). -/
theorem claim_C7_toggle_involution (g : MinesweeperGame) (pos : Position) :
    ((pos ∈ g.revealed ∨ g.state ≠ GameState.playing) → g.toggle_flag pos = g) ∧
    (g.state = GameState.playing → pos ∉ g.revealed →
      g.cell_states pos = (if pos ∈ g.flags then CellState.flagged else CellState.hidden) →
      ((g.toggle_flag pos).toggle_flag pos).flags = g.flags ∧
      ((g.toggle_flag pos).toggle_flag pos).cell_states pos = g.cell_states pos) := by
  constructor
  · intro h
    unfold MinesweeperGame.toggle_flag
    rw [if_pos h]
  · intro hst hrev hcs
    have hcond : ¬(pos ∈ g.revealed ∨ g.state ≠ GameState.playing) := by
      rintro (h | h)
      · exact hrev h
      · exact h hst
    set T : MinesweeperGame :=
      { g with
        flags := symmDiff g.flags {pos}
        cell_states := Function.update g.cell_states pos
          (if pos ∈ symmDiff g.flags {pos} then CellState.flagged
           else CellState.hidden) } with hT
    have h1 : g.toggle_flag pos = T := by
      unfold MinesweeperGame.toggle_flag
      rw [if_neg hcond]
    have hcondT : ¬(pos ∈ T.revealed ∨ T.state ≠ GameState.playing) := hcond
    have h2 : T.toggle_flag pos =
        { T with
          flags := symmDiff T.flags {pos}
          cell_states := Function.update T.cell_states pos
            (if pos ∈ symmDiff T.flags {pos} then CellState.flagged
             else CellState.hidden) } := by
      unfold MinesweeperGame.toggle_flag
      rw [if_neg hcondT]
    rw [h1, h2]
    constructor
    · show symmDiff (symmDiff g.flags {pos}) {pos} = g.flags
      exact symmDiff_singleton_twice g.flags pos
    · show Function.update
          (Function.update g.cell_states pos
            (if pos ∈ symmDiff g.flags {pos} then CellState.flagged else CellState.hidden))
          pos
          (if pos ∈ symmDiff (symmDiff g.flags {pos}) {pos} then CellState.flagged
           else CellState.hidden) pos = g.cell_states pos
      rw [Function.update_same, symmDiff_singleton_twice, hcs]

/-- C7 witness: concrete double toggle on a playing 2 by 2 board. -/
def toggleBoard : MinesweeperGame :=
  { MinesweeperGame.new 2 2 0 with state := GameState.playing }

/-- C7 witness: the theorem applied at cell (0, 0) of the concrete board. -/
theorem claim_C7_witness :
    ((toggleBoard.toggle_flag ⟨0, 0⟩).toggle_flag ⟨0, 0⟩).flags = toggleBoard.flags ∧
    ((toggleBoard.toggle_flag ⟨0, 0⟩).toggle_flag ⟨0, 0⟩).cell_states ⟨0, 0⟩ =
      toggleBoard.cell_states ⟨0, 0⟩ :=
  (claim_C7_toggle_involution toggleBoard ⟨0, 0⟩).2 rfl (by decide) (by decide)

/-! ### C4: return value and effect of reveal_cell -/

/-- C4 (confirmed).  On an ended game, or on a revealed or flagged cell of a
playing game, `reveal_cell` returns false and is a strict no-op; on a fresh mine
it returns false, transitions to lost and freezes the elapsed time, leaving all
other fields untouched; on a fresh safe cell it returns true. -/
theorem claim_C4_reveal_return (g : MinesweeperGame) (pos : Position)
    (sample : Finset Position) (now : Int) :
    ((g.state = GameState.won ∨ g.state = GameState.lost) →
      g.reveal_cell pos sample now = (false, g)) ∧
    (g.state = GameState.playing → (pos ∈ g.revealed ∨ pos ∈ g.flags) →
      g.reveal_cell pos sample now = (false, g)) ∧
    (g.state = GameState.playing → pos ∉ g.revealed → pos ∉ g.flags → pos ∈ g.mines →
      g.reveal_cell pos sample now =
        (false, { g with state := GameState.lost, elapsed_time := now - g.start_time })) ∧
    (g.state = GameState.playing → pos ∉ g.revealed → pos ∉ g.flags → pos ∉ g.mines →
      (g.reveal_cell pos sample now).1 = true) := by
  refine ⟨reveal_cell_ended g pos sample now,
    reveal_cell_noop g pos sample now, reveal_cell_mine g pos sample now, ?_⟩
  intro h h1 h2 h3
  obtain ⟨r, tr, _, heq⟩ := reveal_cell_fill g pos sample now h h1 h2 h3
  rw [heq]

/-- C4 witness: a concrete playing 1 by 3 board with a mine at (0, 1). -/
def mineBoard : MinesweeperGame :=
  { MinesweeperGame.new 1 3 1 with state := GameState.playing, mines := {⟨0, 1⟩} }

/-- C4 witness: revealing the mine returns false and the game is lost. -/
theorem claim_C4_witness :
    (mineBoard.reveal_cell ⟨0, 1⟩ ∅ 7).1 = false ∧
    (mineBoard.reveal_cell ⟨0, 1⟩ ∅ 7).2.state = GameState.lost := by
  have h := (claim_C4_reveal_return mineBoard ⟨0, 1⟩ ∅ 7).2.2.1 rfl (by decide) (by decide)
    (by decide)
  rw [h]
  exact ⟨rfl, rfl⟩

/-! ### C2: win condition -/

/-- Initialisation leaves the revealed set untouched. -/
theorem initialize_mines_revealed (g : MinesweeperGame) (first_click : Position)
    (sample : Finset Position) (now : Int) :
    (g.initialize_mines first_click sample now).revealed = g.revealed := rfl

/-- Initialisation leaves the flag set untouched. -/
theorem initialize_mines_flags (g : MinesweeperGame) (first_click : Position)
    (sample : Finset Position) (now : Int) :
    (g.initialize_mines first_click sample now).flags = g.flags := rfl

/-- Initialisation transitions to playing. -/
theorem initialize_mines_state (g : MinesweeperGame) (first_click : Position)
    (sample : Finset Position) (now : Int) :
    (g.initialize_mines first_click sample now).state = GameState.playing := rfl

/-- C2 (confirmed).  On a playing game a reveal ends in won exactly when it is a
successful reveal whose resulting revealed count plus the mine count equals
`rows * cols`; on that transition the elapsed time is frozen and all mines are
auto-flagged; on a 9 by 9 board with 10 mines this means exactly 71 revealed
cells. -/
theorem claim_C2_win_condition (g : MinesweeperGame) (pos : Position)
    (sample : Finset Position) (now : Int) (hst : g.state = GameState.playing) :
    ((g.reveal_cell pos sample now).2.state = GameState.won ↔
      (pos ∉ g.revealed ∧ pos ∉ g.flags ∧ pos ∉ g.mines ∧
        (g.reveal_cell pos sample now).2.revealed.card + g.mines.card =
          g.rows * g.cols)) ∧
    ((g.reveal_cell pos sample now).2.state = GameState.won →
      (g.reveal_cell pos sample now).2.elapsed_time = now - g.start_time ∧
      (g.reveal_cell pos sample now).2.flags = g.mines) ∧
    (g.rows = 9 → g.cols = 9 → g.mines.card = 10 →
      ((g.reveal_cell pos sample now).2.state = GameState.won ↔
        (pos ∉ g.revealed ∧ pos ∉ g.flags ∧ pos ∉ g.mines ∧
          (g.reveal_cell pos sample now).2.revealed.card = 71))) := by
  have hmain : ((g.reveal_cell pos sample now).2.state = GameState.won ↔
      (pos ∉ g.revealed ∧ pos ∉ g.flags ∧ pos ∉ g.mines ∧
        (g.reveal_cell pos sample now).2.revealed.card + g.mines.card =
          g.rows * g.cols)) ∧
      ((g.reveal_cell pos sample now).2.state = GameState.won →
        (g.reveal_cell pos sample now).2.elapsed_time = now - g.start_time ∧
        (g.reveal_cell pos sample now).2.flags = g.mines) := by
    by_cases h1 : pos ∈ g.revealed ∨ pos ∈ g.flags
    · have heq := reveal_cell_noop g pos sample now hst h1
      rw [heq]
      constructor
      · constructor
        · intro hl
          rw [show (false, g).2 = g from rfl, hst] at hl
          cases hl
        · rintro ⟨ha, hb, _, _⟩
          rcases h1 with h1 | h1
          · exact absurd h1 ha
          · exact absurd h1 hb
      · intro hl
        rw [show (false, g).2 = g from rfl, hst] at hl
        cases hl
    · push_neg at h1
      obtain ⟨h1a, h1b⟩ := h1
      by_cases h2 : pos ∈ g.mines
      · have heq := reveal_cell_mine g pos sample now hst h1a h1b h2
        rw [heq]
        constructor
        · constructor
          · intro hl
            cases hl
          · rintro ⟨_, _, hc, _⟩
            exact absurd h2 hc
        · intro hl
          cases hl
      · obtain ⟨r, tr, hflood, heq⟩ := reveal_cell_fill g pos sample now hst h1a h1b h2
        rw [heq]
        have hrev : ((true, g.fillResult now r tr)).2.revealed = r := fillResult_revealed _ _ _ _
        have hstt : ((true, g.fillResult now r tr)).2.state =
            if r.card + g.mines.card = g.rows * g.cols then GameState.won else g.state :=
          fillResult_state _ _ _ _
        rw [hrev, hstt]
        by_cases hwin : r.card + g.mines.card = g.rows * g.cols
        · rw [if_pos hwin]
          refine ⟨⟨fun _ => ⟨h1a, h1b, h2, hwin⟩, fun _ => rfl⟩, fun _ => ?_⟩
          have he : ((true, g.fillResult now r tr)).2.elapsed_time =
              if r.card + g.mines.card = g.rows * g.cols then now - g.start_time
              else g.elapsed_time := fillResult_elapsed _ _ _ _
          have hf : ((true, g.fillResult now r tr)).2.flags =
              if r.card + g.mines.card = g.rows * g.cols then g.mines else g.flags :=
            fillResult_flags _ _ _ _
          rw [he, hf, if_pos hwin, if_pos hwin]
          exact ⟨rfl, rfl⟩
        · rw [if_neg hwin]
          constructor
          · constructor
            · intro hl
              rw [hst] at hl
              cases hl
            · rintro ⟨_, _, _, hc⟩
              exact absurd hc hwin
          · intro hl
            rw [hst] at hl
            cases hl
  refine ⟨hmain.1, hmain.2, ?_⟩
  intro hr hc hm
  rw [hmain.1, hr, hc, hm]
  constructor
  · rintro ⟨a, b, c, d⟩
    exact ⟨a, b, c, by omega⟩
  · rintro ⟨a, b, c, d⟩
    exact ⟨a, b, c, by omega⟩

/-- C2 witness: a playing 2 by 2 board with no mines; revealing any cell floods
all four cells and wins. -/
def winBoard : MinesweeperGame :=
  { MinesweeperGame.new 2 2 0 with state := GameState.playing }

/-- C2 witness: the win equivalence applied on the concrete board. -/
theorem claim_C2_witness :
    (winBoard.reveal_cell ⟨0, 0⟩ ∅ 5).2.state = GameState.won :=
  (claim_C2_win_condition winBoard ⟨0, 0⟩ ∅ 5 rfl).1.mpr (by decide)

/-! ### C10: the first reveal of a session always succeeds -/

/-- C10 (confirmed).  From a ready engine with empty revealed and flag sets (as
produced by construction or reset), the first reveal returns true and the game is
playing or won, never lost. -/
theorem claim_C10_first_reveal (g : MinesweeperGame) (pos : Position)
    (sample : Finset Position) (now : Int) (hst : g.state = GameState.ready)
    (hrev : g.revealed = ∅) (hfl : g.flags = ∅)
    (_hin : inGrid g.rows g.cols pos = true)
    (hs : ValidSample g pos sample) :
    (g.reveal_cell pos sample now).1 = true ∧
      ((g.reveal_cell pos sample now).2.state = GameState.playing ∨
        (g.reveal_cell pos sample now).2.state = GameState.won) := by
  have ha : g.afterInit pos sample now = g.initialize_mines pos sample now := by
    unfold MinesweeperGame.afterInit
    rw [if_pos hst]
  rcases reveal_cell_cases g pos sample now with ⟨hc, heq⟩ | ⟨hc, heq⟩ |
      ⟨r, tr, _, _, _, hflood, heq⟩
  · rw [ha] at hc
    rcases hc with hc | hc | hc
    · exact absurd (initialize_mines_state g pos sample now) hc.1
    · rw [initialize_mines_revealed, hrev] at hc
      exact absurd hc (Finset.not_mem_empty pos)
    · rw [initialize_mines_flags, hfl] at hc
      exact absurd hc (Finset.not_mem_empty pos)
  · rw [ha] at hc
    rw [initialize_mines_mines] at hc
    have := hs.1 hc.2.2
    rw [MinesweeperGame.availableCells, Finset.mem_sdiff] at this
    exact absurd (Finset.mem_insert_self pos _) this.2
  · rw [heq]
    refine ⟨rfl, ?_⟩
    show ((g.afterInit pos sample now).fillResult now r tr).state = GameState.playing ∨
      ((g.afterInit pos sample now).fillResult now r tr).state = GameState.won
    rw [fillResult_state]
    split
    · exact Or.inr rfl
    · rw [ha]
      exact Or.inl (initialize_mines_state g pos sample now)

/-- C10 witness: the beginner preset, first click (4, 4), concrete sample. -/
theorem claim_C10_witness :
    ((MinesweeperGame.new 9 9 10).reveal_cell ⟨4, 4⟩ beginnerSample 0).1 = true :=
  (claim_C10_first_reveal (MinesweeperGame.new 9 9 10) ⟨4, 4⟩ beginnerSample 0
    rfl rfl rfl (by decide) ⟨by decide, by decide⟩).1

/-! ### C3: flood-fill correctness and termination -/

/-- C3 amended (the claim as stated fails when flags sit inside the zero region;
see the counterexample).  For a fresh, unflagged, non-mine cell of a playing game
with cached adjacency zero: the worklist loop terminates within the supplied fuel;
it reveals each cell at most once and only fresh cells; and the resulting revealed
set is exactly the old one plus the region fill-reachable through unflagged, not
previously revealed zero-adjacency cells together with their unflagged, not
previously revealed bordering cells. -/
theorem claim_C3_flood_fill (g : MinesweeperGame) (pos : Position)
    (sample : Finset Position) (now : Int) (hst : g.state = GameState.playing)
    (hrev : pos ∉ g.revealed) (hfl : pos ∉ g.flags) (hm : pos ∉ g.mines)
    (_hz : g.adjacent_cache pos = 0) :
    (∃ p, floodAux g.rows g.cols g.flags g.adjacent_cache (floodFuel g) [pos] g.revealed
        = some p) ∧
    (∀ r tr,
      floodAux g.rows g.cols g.flags g.adjacent_cache (floodFuel g) [pos] g.revealed
          = some (r, tr) →
      (g.reveal_cell pos sample now).2.revealed = r ∧ tr.Nodup ∧
        ∀ q ∈ tr, q ∉ g.revealed) ∧
    (∀ q, q ∈ (g.reveal_cell pos sample now).2.revealed ↔
      q ∈ g.revealed ∨ FillReach g.rows g.cols g.flags g.revealed g.adjacent_cache pos q) := by
  obtain ⟨r, tr, hflood, heq⟩ := reveal_cell_fill g pos sample now hst hrev hfl hm
  refine ⟨⟨(r, tr), hflood⟩, ?_, ?_⟩
  · intro r' tr' h'
    rw [hflood] at h'
    simp only [Option.some.injEq, Prod.mk.injEq] at h'
    obtain ⟨hr', htr'⟩ := h'
    subst hr'; subst htr'
    obtain ⟨_, hnd, hfresh⟩ := floodAux_trace _ _ _ _ _ _ _ _ _ hflood
    refine ⟨?_, hnd, hfresh⟩
    rw [heq]
    exact fillResult_revealed _ _ _ _
  · intro q
    rw [heq]
    show q ∈ (g.fillResult now r tr).revealed ↔ _
    rw [fillResult_revealed]
    exact floodAux_result_iff g.rows g.cols g.flags g.adjacent_cache g.revealed pos
      (floodFuel g) r tr hfl hrev hflood q

/-- Specification-language zero region of the original claim: the connected region
of zero-adjacency cells reachable from the start plus all cells bordering that
region, with no provision for flags or previously revealed cells. -/
inductive SpecZeroReach (rows cols : Nat) (adj : Position → Nat) (start : Position) :
    Position → Prop where
  | base : SpecZeroReach rows cols adj start start
  | step (p q : Position) :
      SpecZeroReach rows cols adj start p → adj p = 0 →
      q ∈ p.neighbors rows cols → SpecZeroReach rows cols adj start q

/-- C3 counterexample board: 3 by 3, one mine at (2, 2), a flag at (0, 2), playing,
nothing revealed; the adjacency cache is the accurate one the engine would hold. -/
def blockedBoard : MinesweeperGame :=
  { ({ MinesweeperGame.new 3 3 1 with
      mines := {Position.mk 2 2} }).cacheAdjacentCounts with
    state := GameState.playing
    flags := {Position.mk 0 2} }

/-- C3 counterexample: cell (0, 2) lies in the connected zero region of (0, 0) as
described by the claim, the click satisfies all of the claim's premisses, yet the
reveal does not reveal (0, 2) — the flag blocks the fill. -/
theorem claim_C3_counterexample :
    blockedBoard.state = GameState.playing ∧
    blockedBoard.adjacent_cache ⟨0, 0⟩ = 0 ∧
    (⟨0, 0⟩ : Position) ∉ blockedBoard.mines ∧
    (⟨0, 0⟩ : Position) ∉ blockedBoard.revealed ∧
    (⟨0, 0⟩ : Position) ∉ blockedBoard.flags ∧
    SpecZeroReach blockedBoard.rows blockedBoard.cols blockedBoard.adjacent_cache
      ⟨0, 0⟩ ⟨0, 2⟩ ∧
    (⟨0, 2⟩ : Position) ∉ (blockedBoard.reveal_cell ⟨0, 0⟩ ∅ 0).2.revealed := by
  refine ⟨rfl, by decide, by decide, by decide, by decide, ?_, by decide⟩
  refine SpecZeroReach.step ⟨0, 1⟩ ⟨0, 2⟩
    (SpecZeroReach.step ⟨0, 0⟩ ⟨0, 1⟩ SpecZeroReach.base (by decide) (by decide))
    (by decide) (by decide)

/-- C3 witness: on the counterexample board the amended characterisation puts the
fill-reachable cell (1, 1) — a bordering numbered cell — into the revealed set. -/
theorem claim_C3_witness :
    (⟨1, 1⟩ : Position) ∈ (blockedBoard.reveal_cell ⟨0, 0⟩ ∅ 0).2.revealed :=
  ((claim_C3_flood_fill blockedBoard ⟨0, 0⟩ ∅ 0 rfl (by decide) (by decide) (by decide)
      (by decide)).2.2 ⟨1, 1⟩).mpr
    (Or.inr (FillReach.step ⟨0, 0⟩ ⟨1, 1⟩ FillReach.base (by decide) (by decide) (by decide)
      (by decide) (by decide) (by decide)))

/-! ### C5: the chord -/

/-- Unfolding: empty reveal sequence. -/
theorem revealEach_nil (g : MinesweeperGame) (sample : Finset Position) (now : Int) :
    revealEach g sample now [] = (true, g) := rfl

/-- Unfolding: one step of the short-circuiting reveal sequence. -/
theorem revealEach_cons (g : MinesweeperGame) (sample : Finset Position) (now : Int)
    (n : Position) (rest : List Position) :
    revealEach g sample now (n :: rest) =
      if (g.reveal_cell n sample now).1 then
        revealEach (g.reveal_cell n sample now).2 sample now rest
      else (false, (g.reveal_cell n sample now).2) := rfl

/-- The reveal sequence only grows the revealed set. -/
theorem revealEach_mono :
    ∀ (l : List Position) (g : MinesweeperGame) (sample : Finset Position) (now : Int),
      g.revealed ⊆ (revealEach g sample now l).2.revealed := by
  intro l
  induction l with
  | nil => intro g sample now; rw [revealEach_nil]
  | cons n rest ih =>
    intro g sample now
    rw [revealEach_cons]
    by_cases hr : (g.reveal_cell n sample now).1 = true
    · rw [if_pos hr]
      exact (reveal_revealed_mono g n sample now).trans
        (ih (g.reveal_cell n sample now).2 sample now)
    · rw [if_neg hr]
      exact reveal_revealed_mono g n sample now

/-- When the whole reveal sequence succeeds, every listed cell ends up revealed. -/
theorem revealEach_true_mem :
    ∀ (l : List Position) (g : MinesweeperGame) (sample : Finset Position) (now : Int),
      (revealEach g sample now l).1 = true →
      ∀ n ∈ l, n ∈ (revealEach g sample now l).2.revealed := by
  intro l
  induction l with
  | nil => intro g sample now _ n hn; exact absurd hn (List.not_mem_nil n)
  | cons m rest ih =>
    intro g sample now h n hn
    rw [revealEach_cons] at h ⊢
    by_cases hr : (g.reveal_cell m sample now).1 = true
    · rw [if_pos hr] at h ⊢
      rcases List.mem_cons.mp hn with hn | hn
      · subst hn
        exact revealEach_mono rest _ sample now (reveal_true_pos_mem g n sample now hr)
      · exact ih _ sample now h n hn
    · rw [if_neg hr] at h
      exact absurd h (by simp)

/-- If the reveal sequence ends in a lost game it reported failure. -/
theorem revealEach_lost_false :
    ∀ (l : List Position) (g : MinesweeperGame) (sample : Finset Position) (now : Int),
      (g.state = GameState.playing ∨ g.state = GameState.won) →
      (revealEach g sample now l).2.state = GameState.lost →
      (revealEach g sample now l).1 = false := by
  intro l
  induction l with
  | nil =>
    intro g sample now hg hlost
    rw [revealEach_nil] at hlost
    rcases hg with hg | hg <;> rw [show (true, g).2 = g from rfl, hg] at hlost <;> cases hlost
  | cons m rest ih =>
    intro g sample now hg hlost
    rw [revealEach_cons] at hlost ⊢
    by_cases hr : (g.reveal_cell m sample now).1 = true
    · rw [if_pos hr] at hlost ⊢
      have hg' : (g.reveal_cell m sample now).2.state = GameState.playing ∨
          (g.reveal_cell m sample now).2.state = GameState.won := by
        rcases hg with hg | hg
        · exact reveal_true_state g m sample now hg hr
        · rw [reveal_cell_ended g m sample now (Or.inl hg)] at hr
          exact absurd hr (by simp)
      exact ih _ sample now hg' hlost
    · rw [if_neg hr]

/-- Unfolding of a chord whose guard and flag-count check both pass. -/
theorem auto_reveal_eq (g : MinesweeperGame) (pos : Position) (sample : Finset Position)
    (now : Int) (h1 : pos ∈ g.revealed) (h2 : g.state = GameState.playing)
    (h3 : ((pos.neighbors g.rows g.cols) ∩ g.flags).card = g.adjacent_cache pos) :
    g.auto_reveal_neighbors pos sample now = revealEach g sample now (g.chordHidden pos) := by
  have hcond : ¬(pos ∉ g.revealed ∨ g.state ≠ GameState.playing) := by
    rintro (h | h)
    · exact h h1
    · exact h h2
  unfold MinesweeperGame.auto_reveal_neighbors
  rw [if_neg hcond]
  exact if_pos h3

/-- C5 amended (the claim as stated fails: a chord can return false with no mine
hit, because an earlier reveal's flood fill already revealed a later listed
neighbour — see the counterexample — and in that case not every hidden neighbour
gets revealed).  The chord is a strict no-op returning false unless `pos` is
revealed, the game is playing and the flagged-neighbour count equals the cached
adjacency count; when those conditions hold it reveals the hidden neighbours in
turn through `reveal_cell`, short-circuiting at the first failed reveal: if it
returns true every originally hidden neighbour is revealed, and whenever a mine
was detonated (the game ends lost) it returns false. -/
theorem claim_C5_auto_reveal (g : MinesweeperGame) (pos : Position)
    (sample : Finset Position) (now : Int) :
    ((pos ∉ g.revealed ∨ g.state ≠ GameState.playing) →
      g.auto_reveal_neighbors pos sample now = (false, g)) ∧
    (pos ∈ g.revealed → g.state = GameState.playing →
      ((pos.neighbors g.rows g.cols) ∩ g.flags).card ≠ g.adjacent_cache pos →
      g.auto_reveal_neighbors pos sample now = (false, g)) ∧
    (pos ∈ g.revealed → g.state = GameState.playing →
      ((pos.neighbors g.rows g.cols) ∩ g.flags).card = g.adjacent_cache pos →
      ((g.auto_reveal_neighbors pos sample now).1 = true →
        ∀ n ∈ g.chordHidden pos,
          n ∈ (g.auto_reveal_neighbors pos sample now).2.revealed) ∧
      ((g.auto_reveal_neighbors pos sample now).2.state = GameState.lost →
        (g.auto_reveal_neighbors pos sample now).1 = false)) := by
  refine ⟨?_, ?_, ?_⟩
  · intro h
    unfold MinesweeperGame.auto_reveal_neighbors
    rw [if_pos h]
  · intro h1 h2 h3
    have hcond : ¬(pos ∉ g.revealed ∨ g.state ≠ GameState.playing) := by
      rintro (h | h)
      · exact h h1
      · exact h h2
    unfold MinesweeperGame.auto_reveal_neighbors
    rw [if_neg hcond]
    exact if_neg h3
  · intro h1 h2 h3
    rw [auto_reveal_eq g pos sample now h1 h2 h3]
    exact ⟨revealEach_true_mem (g.chordHidden pos) g sample now,
      revealEach_lost_false (g.chordHidden pos) g sample now (Or.inl h2)⟩

/-- C5 counterexample board: 2 by 3, one mine at (0, 2) correctly flagged, cell
(1, 1) revealed with adjacency count 1, accurate adjacency cache, playing. -/
def chordBoard : MinesweeperGame :=
  { ({ MinesweeperGame.new 2 3 1 with
      mines := {Position.mk 0 2} }).cacheAdjacentCounts with
    state := GameState.playing
    flags := {Position.mk 0 2}
    revealed := {Position.mk 1 1} }

/-- C5 counterexample: the chord conditions hold at (1, 1), the flag is correct
(it sits on the mine), yet the chord returns false with the game still playing —
no mine was hit — and the hidden neighbour (1, 2) is left unrevealed, because the
flood fill of the first chord reveal already revealed the later listed neighbour
(0, 1), whose own reveal then failed. -/
theorem claim_C5_counterexample :
    chordBoard.state = GameState.playing ∧
    (⟨1, 1⟩ : Position) ∈ chordBoard.revealed ∧
    ((Position.mk 1 1).neighbors chordBoard.rows chordBoard.cols ∩ chordBoard.flags).card
      = chordBoard.adjacent_cache ⟨1, 1⟩ ∧
    chordBoard.flags ⊆ chordBoard.mines ∧
    (⟨1, 2⟩ : Position) ∈ (Position.mk 1 1).neighbors chordBoard.rows chordBoard.cols ∧
    (⟨1, 2⟩ : Position) ∉ chordBoard.revealed ∧
    (⟨1, 2⟩ : Position) ∉ chordBoard.flags ∧
    (chordBoard.auto_reveal_neighbors ⟨1, 1⟩ ∅ 0).1 = false ∧
    (chordBoard.auto_reveal_neighbors ⟨1, 1⟩ ∅ 0).2.state = GameState.playing ∧
    (⟨1, 2⟩ : Position) ∉ (chordBoard.auto_reveal_neighbors ⟨1, 1⟩ ∅ 0).2.revealed := by
  decide

/-- C5 witness board: 2 by 2, one mine at (1, 1) correctly flagged, (0, 0)
revealed; this chord succeeds. -/
def chordWinBoard : MinesweeperGame :=
  { ({ MinesweeperGame.new 2 2 1 with
      mines := {Position.mk 1 1} }).cacheAdjacentCounts with
    state := GameState.playing
    flags := {Position.mk 1 1}
    revealed := {Position.mk 0 0} }

/-- C5 witness: a successful chord reveals the hidden neighbour (0, 1). -/
theorem claim_C5_witness :
    (⟨0, 1⟩ : Position) ∈ (chordWinBoard.auto_reveal_neighbors ⟨0, 0⟩ ∅ 0).2.revealed :=
  ((claim_C5_auto_reveal chordWinBoard ⟨0, 0⟩ ∅ 0).2.2 (by decide) rfl (by decide)).1
    (by decide) ⟨0, 1⟩ (by decide)

/-! ### Reachable engine states and the standing invariant -/

/-- Accuracy of the adjacency dictionary: on grid cells it holds the number of
neighbouring mines, elsewhere reads fall back to the `.get` default 0. -/
def CacheOK (g : MinesweeperGame) : Prop :=
  ∀ p, g.adjacent_cache p =
    if inGrid g.rows g.cols p then ((p.neighbors g.rows g.cols) ∩ g.mines).card else 0

/-- Standing invariant of the engine: the three position sets live on the grid,
flags and revealed cells are disjoint, no revealed cell is a mine, the adjacency
cache is accurate, and a ready game has empty sets. -/
def EngineInv (g : MinesweeperGame) : Prop :=
  g.mines ⊆ allCells g.rows g.cols ∧
  g.revealed ⊆ allCells g.rows g.cols ∧
  g.flags ⊆ allCells g.rows g.cols ∧
  Disjoint g.flags g.revealed ∧
  Disjoint g.revealed g.mines ∧
  CacheOK g ∧
  (g.state = GameState.ready → g.mines = ∅ ∧ g.revealed = ∅ ∧ g.flags = ∅)

/-- States reachable from a fresh engine by engine calls whose position arguments
are in bounds, with every sampling outcome one that `random.sample` can produce. -/
inductive ReachableInBounds : MinesweeperGame → Prop where
  | fresh (rows cols mines : Nat) : ReachableInBounds (MinesweeperGame.new rows cols mines)
  | reveal (g : MinesweeperGame) (pos : Position) (sample : Finset Position) (now : Int) :
      ReachableInBounds g → inGrid g.rows g.cols pos = true →
      (g.state = GameState.ready → ValidSample g pos sample) →
      ReachableInBounds (g.reveal_cell pos sample now).2
  | toggle (g : MinesweeperGame) (pos : Position) :
      ReachableInBounds g → inGrid g.rows g.cols pos = true →
      ReachableInBounds (g.toggle_flag pos)
  | chord (g : MinesweeperGame) (pos : Position) (sample : Finset Position) (now : Int) :
      ReachableInBounds g → inGrid g.rows g.cols pos = true →
      ReachableInBounds (g.auto_reveal_neighbors pos sample now).2
  | reset (g : MinesweeperGame) : ReachableInBounds g → ReachableInBounds g.reset

/-- A fresh engine satisfies the invariant. -/
theorem inv_new (rows cols mines : Nat) : EngineInv (MinesweeperGame.new rows cols mines) := by
  refine ⟨Finset.empty_subset _, Finset.empty_subset _, Finset.empty_subset _, ?_, ?_, ?_, ?_⟩
  · simp [MinesweeperGame.new]
  · simp [MinesweeperGame.new]
  · intro p
    simp [MinesweeperGame.new]
  · exact fun _ => ⟨rfl, rfl, rfl⟩

/-- Reset restores the invariant. -/
theorem inv_reset (g : MinesweeperGame) : EngineInv g.reset := by
  refine ⟨Finset.empty_subset _, Finset.empty_subset _, Finset.empty_subset _, ?_, ?_, ?_, ?_⟩
  · simp [MinesweeperGame.reset]
  · simp [MinesweeperGame.reset]
  · intro p
    simp [MinesweeperGame.reset]
  · exact fun _ => ⟨rfl, rfl, rfl⟩

/-- Lazy initialisation never produces a ready state. -/
theorem afterInit_state_ne_ready (g0 : MinesweeperGame) (pos : Position)
    (sample : Finset Position) (now : Int) :
    (g0.afterInit pos sample now).state ≠ GameState.ready := by
  unfold MinesweeperGame.afterInit
  split
  case isTrue h =>
    intro hcon
    exact absurd (show GameState.playing = GameState.ready from hcon) (by decide)
  case isFalse h => exact h

/-- Lazy initialisation preserves the invariant whenever the sampling outcome is
one `random.sample` can produce. -/
theorem inv_afterInit (g : MinesweeperGame) (pos : Position) (sample : Finset Position)
    (now : Int) (hInv : EngineInv g)
    (hsam : g.state = GameState.ready → ValidSample g pos sample) :
    EngineInv (g.afterInit pos sample now) := by
  unfold MinesweeperGame.afterInit
  split
  case isFalse h => exact hInv
  case isTrue h =>
    obtain ⟨hm, hr, hf⟩ := hInv.2.2.2.2.2.2 h
    have hs := hsam h
    refine ⟨?_, ?_, ?_, ?_, ?_, ?_, ?_⟩
    · show sample ⊆ allCells g.rows g.cols
      intro x hx
      have hx' := hs.1 hx
      rw [MinesweeperGame.availableCells, Finset.mem_sdiff] at hx'
      exact hx'.1
    · show g.revealed ⊆ allCells g.rows g.cols
      rw [hr]
      exact Finset.empty_subset _
    · show g.flags ⊆ allCells g.rows g.cols
      rw [hf]
      exact Finset.empty_subset _
    · show Disjoint g.flags g.revealed
      exact hInv.2.2.2.1
    · show Disjoint g.revealed sample
      rw [hr]
      simp
    · intro p
      rfl
    · intro hcon
      exact absurd (show GameState.playing = GameState.ready from hcon) (by decide)

/-- Fill-reachable cells are grid cells, are not mines and are not flagged,
provided the start cell is an unflagged non-mine grid cell and the adjacency
function is the accurate cache for the mine set `M`. -/
theorem fillReach_props (rows cols : Nat) (F rev0 M : Finset Position) (A : Position → Nat)
    (hA : ∀ p, A p = if inGrid rows cols p then ((p.neighbors rows cols) ∩ M).card else 0)
    (start : Position) (hgrid : start ∈ allCells rows cols) (hM : start ∉ M)
    (hF : start ∉ F) :
    ∀ q, FillReach rows cols F rev0 A start q →
      q ∈ allCells rows cols ∧ q ∉ M ∧ q ∉ F := by
  intro q hq
  induction hq with
  | base => exact ⟨hgrid, hM, hF⟩
  | step p x hp hpF hp0 hpa hx hxF hx0 ih =>
    obtain ⟨hpg, hpM, _⟩ := ih
    refine ⟨neighbors_subset_allCells p rows cols hx, ?_, hxF⟩
    have hcache := hA p
    rw [if_pos (mem_allCells.mp hpg)] at hcache
    have hcard : ((p.neighbors rows cols) ∩ M).card = 0 := by
      rw [← hcache]
      exact hpa
    rw [Finset.card_eq_zero] at hcard
    intro hxM
    have hmem : x ∈ (p.neighbors rows cols) ∩ M := Finset.mem_inter.mpr ⟨hx, hxM⟩
    rw [hcard] at hmem
    exact absurd hmem (Finset.not_mem_empty x)

/-- Cache after the win check. -/
theorem fillResult_cache (g : MinesweeperGame) (now : Int) (r : Finset Position)
    (tr : List Position) :
    (g.fillResult now r tr).adjacent_cache = g.adjacent_cache := by
  simp only [MinesweeperGame.fillResult]
  split <;> rfl

/-- Completing a fill (including the win check) preserves the invariant. -/
theorem inv_fillResult (g' : MinesweeperGame) (pos : Position) (now : Int)
    (r : Finset Position) (tr : List Position) (hInv : EngineInv g')
    (hnready : g'.state ≠ GameState.ready)
    (hposgrid : inGrid g'.rows g'.cols pos = true)
    (hr1 : pos ∉ g'.revealed) (hr2 : pos ∉ g'.flags) (hr3 : pos ∉ g'.mines)
    (hflood : floodAux g'.rows g'.cols g'.flags g'.adjacent_cache (floodFuel g') [pos]
      g'.revealed = some (r, tr)) :
    EngineInv (g'.fillResult now r tr) := by
  obtain ⟨i1, i2, i3, i4, i5, i6, _⟩ := hInv
  have hchar := floodAux_result_iff g'.rows g'.cols g'.flags g'.adjacent_cache g'.revealed
    pos (floodFuel g') r tr hr2 hr1 hflood
  have hreach := fillReach_props g'.rows g'.cols g'.flags g'.revealed g'.mines
    g'.adjacent_cache i6 pos (mem_allCells.mpr hposgrid) hr3 hr2
  have hrsub : r ⊆ allCells g'.rows g'.cols := by
    intro q hq
    rcases (hchar q).mp hq with hq' | hq'
    · exact i2 hq'
    · exact (hreach q hq').1
  have hrmines : Disjoint r g'.mines := by
    rw [Finset.disjoint_left]
    intro q hq hqm
    rcases (hchar q).mp hq with hq' | hq'
    · exact (Finset.disjoint_left.mp i5) hq' hqm
    · exact (hreach q hq').2.1 hqm
  have hrflags : Disjoint g'.flags r := by
    rw [Finset.disjoint_right]
    intro q hq hqf
    rcases (hchar q).mp hq with hq' | hq'
    · exact (Finset.disjoint_left.mp i4) hqf hq'
    · exact (hreach q hq').2.2 hqf
  have hdims := fillResult_dims g' now r tr
  refine ⟨?_, ?_, ?_, ?_, ?_, ?_, ?_⟩
  · rw [hdims.1, hdims.2, fillResult_mines]
    exact i1
  · rw [hdims.1, hdims.2, fillResult_revealed]
    exact hrsub
  · rw [hdims.1, hdims.2, fillResult_flags]
    split
    · exact i1
    · exact i3
  · rw [fillResult_flags, fillResult_revealed]
    split
    · exact hrmines.symm
    · exact hrflags
  · rw [fillResult_revealed, fillResult_mines]
    exact hrmines
  · intro p
    rw [fillResult_cache, fillResult_mines, hdims.1, hdims.2]
    exact i6 p
  · intro hcon
    rw [fillResult_state] at hcon
    rcases Decidable.em (r.card + g'.mines.card = g'.rows * g'.cols) with hwin | hwin
    · rw [if_pos hwin] at hcon
      exact absurd hcon (by decide)
    · rw [if_neg hwin] at hcon
      exact absurd hcon hnready

/-- A reveal with an in-bounds position and a producible sample preserves the
invariant. -/
theorem inv_reveal (g : MinesweeperGame) (pos : Position) (sample : Finset Position)
    (now : Int) (hInv : EngineInv g) (hpos : inGrid g.rows g.cols pos = true)
    (hsam : g.state = GameState.ready → ValidSample g pos sample) :
    EngineInv (g.reveal_cell pos sample now).2 := by
  have hInv' : EngineInv (g.afterInit pos sample now) :=
    inv_afterInit g pos sample now hInv hsam
  have hdims := afterInit_dims g pos sample now
  have hnready := afterInit_state_ne_ready g pos sample now
  rcases reveal_cell_cases g pos sample now with ⟨_, heq⟩ | ⟨hc, heq⟩ |
      ⟨r, tr, hr1, hr2, hr3, hflood, heq⟩
  · rw [heq]
    exact hInv'
  · rw [heq]
    obtain ⟨i1, i2, i3, i4, i5, i6, _⟩ := hInv'
    exact ⟨i1, i2, i3, i4, i5, i6, fun hcon =>
      absurd (show GameState.lost = GameState.ready from hcon) (by decide)⟩
  · rw [heq]
    refine inv_fillResult (g.afterInit pos sample now) pos now r tr hInv' hnready ?_
      hr1 hr2 hr3 hflood
    rw [hdims.1, hdims.2]
    exact hpos

/-- A toggle with an in-bounds position preserves the invariant. -/
theorem inv_toggle (g : MinesweeperGame) (pos : Position) (hInv : EngineInv g)
    (hpos : inGrid g.rows g.cols pos = true) : EngineInv (g.toggle_flag pos) := by
  unfold MinesweeperGame.toggle_flag
  split
  case isTrue h => exact hInv
  case isFalse h =>
    push_neg at h
    obtain ⟨hrev, hst⟩ := h
    obtain ⟨i1, i2, i3, i4, i5, i6, i7⟩ := hInv
    refine ⟨i1, i2, ?_, ?_, i5, i6, ?_⟩
    · show symmDiff g.flags {pos} ⊆ allCells g.rows g.cols
      intro x hx
      rw [Finset.mem_symmDiff] at hx
      rcases hx with ⟨hx, _⟩ | ⟨hx, _⟩
      · exact i3 hx
      · rw [Finset.mem_singleton] at hx
        subst hx
        exact mem_allCells.mpr hpos
    · show Disjoint (symmDiff g.flags {pos}) g.revealed
      rw [Finset.disjoint_left]
      intro x hx hxrev
      rw [Finset.mem_symmDiff] at hx
      rcases hx with ⟨hx, _⟩ | ⟨hx, _⟩
      · exact (Finset.disjoint_left.mp i4) hx hxrev
      · rw [Finset.mem_singleton] at hx
        subst hx
        exact hrev hxrev
    · intro hcon
      have hps : GameState.playing = GameState.ready := by
        rw [← hst]
        exact hcon
      exact absurd hps (by decide)

/-- The chord's guard fails: no-op. -/
theorem auto_reveal_guard (g : MinesweeperGame) (pos : Position) (sample : Finset Position)
    (now : Int) (h : pos ∉ g.revealed ∨ g.state ≠ GameState.playing) :
    g.auto_reveal_neighbors pos sample now = (false, g) := by
  unfold MinesweeperGame.auto_reveal_neighbors
  rw [if_pos h]

/-- The chord's flag-count check fails: no-op. -/
theorem auto_reveal_ne (g : MinesweeperGame) (pos : Position) (sample : Finset Position)
    (now : Int) (h1 : pos ∈ g.revealed) (h2 : g.state = GameState.playing)
    (h3 : ((pos.neighbors g.rows g.cols) ∩ g.flags).card ≠ g.adjacent_cache pos) :
    g.auto_reveal_neighbors pos sample now = (false, g) := by
  have hcond : ¬(pos ∉ g.revealed ∨ g.state ≠ GameState.playing) := by
    rintro (h | h)
    · exact h h1
    · exact h h2
  unfold MinesweeperGame.auto_reveal_neighbors
  rw [if_neg hcond]
  exact if_neg h3

/-- The short-circuiting reveal sequence preserves the invariant when it starts
in a non-ready state and every listed position is in bounds. -/
theorem inv_revealEach :
    ∀ (l : List Position) (g : MinesweeperGame) (sample : Finset Position) (now : Int),
      EngineInv g → g.state ≠ GameState.ready →
      (∀ n ∈ l, inGrid g.rows g.cols n = true) →
      EngineInv (revealEach g sample now l).2 := by
  intro l
  induction l with
  | nil =>
    intro g sample now hInv _ _
    rw [revealEach_nil]
    exact hInv
  | cons m rest ih =>
    intro g sample now hInv hnr hmem
    rw [revealEach_cons]
    have hInv' : EngineInv (g.reveal_cell m sample now).2 :=
      inv_reveal g m sample now hInv (hmem m (List.mem_cons_self m rest))
        (fun h => absurd h hnr)
    by_cases hr : (g.reveal_cell m sample now).1 = true
    · rw [if_pos hr]
      refine ih _ sample now hInv' (reveal_not_ready g m sample now hnr) ?_
      intro n hn
      rw [(reveal_dims g m sample now).1, (reveal_dims g m sample now).2]
      exact hmem n (List.mem_cons_of_mem m hn)
    · rw [if_neg hr]
      exact hInv'

/-- A chord preserves the invariant. -/
theorem inv_chord (g : MinesweeperGame) (pos : Position) (sample : Finset Position)
    (now : Int) (hInv : EngineInv g) :
    EngineInv (g.auto_reveal_neighbors pos sample now).2 := by
  by_cases h1 : pos ∉ g.revealed ∨ g.state ≠ GameState.playing
  · rw [auto_reveal_guard g pos sample now h1]
    exact hInv
  · push_neg at h1
    obtain ⟨hrev, hst⟩ := h1
    by_cases h2 : ((pos.neighbors g.rows g.cols) ∩ g.flags).card = g.adjacent_cache pos
    · rw [auto_reveal_eq g pos sample now hrev hst h2]
      refine inv_revealEach (g.chordHidden pos) g sample now hInv ?_ ?_
      · rw [hst]
        exact fun hcon => absurd hcon (by decide)
      · intro n hn
        simp only [MinesweeperGame.chordHidden, List.mem_filter] at hn
        exact mem_neighborsList_inGrid hn.1
    · rw [auto_reveal_ne g pos sample now hrev hst h2]
      exact hInv

/-- Every reachable state (with in-bounds arguments and producible samples)
satisfies the standing invariant. -/
theorem reachable_inv : ∀ g, ReachableInBounds g → EngineInv g := by
  intro g h
  induction h with
  | fresh rows cols mines => exact inv_new rows cols mines
  | reveal g pos sample now _ hpos hsam ih => exact inv_reveal g pos sample now ih hpos hsam
  | toggle g pos _ hpos ih => exact inv_toggle g pos ih hpos
  | chord g pos sample now _ _ ih => exact inv_chord g pos sample now ih
  | reset g _ _ => exact inv_reset g

/-! ### C8: flags and revealed are disjoint -/

/-- C8 amended (the claim as stated fails for calls with out-of-grid positions;
see the counterexample).  In every state reachable from a fresh engine by
`reveal_cell`, `toggle_flag`, `auto_reveal_neighbors` and `reset` calls whose
position arguments are in bounds, the flag set and the revealed set are
disjoint. -/
theorem claim_C8_disjoint (g : MinesweeperGame) (h : ReachableInBounds g) :
    Disjoint g.flags g.revealed :=
  (reachable_inv g h).2.2.2.1

/-- C8/C9 shared scenario: a legitimate first reveal on a 3 by 3 board with two
mines, leaving a mid-game playing state. -/
def midGame : MinesweeperGame :=
  ((MinesweeperGame.new 3 3 2).reveal_cell ⟨0, 0⟩ {Position.mk 0 2, Position.mk 2 2} 0).2

/-- C8 witness: the invariant holds on the concrete reachable mid-game state. -/
theorem claim_C8_witness : Disjoint midGame.flags midGame.revealed :=
  claim_C8_disjoint midGame
    (ReachableInBounds.reveal (MinesweeperGame.new 3 3 2) ⟨0, 0⟩
      {Position.mk 0 2, Position.mk 2 2} 0 (ReachableInBounds.fresh 3 3 2) (by decide)
      (fun _ => ⟨by decide, by decide⟩))

/-- C8 counterexample scenario: 1 by 6 board, one mine at (0, 2) placed by a
legitimate first click at (0, 0), followed by a reveal at the out-of-grid
position (-1, 1).  The fill walks through the mine and the win check fires with
the mine revealed, so the auto-flagging puts (0, 2) into both sets. -/
def rowBoard : MinesweeperGame := MinesweeperGame.new 1 6 1

/-- State after the legitimate first reveal on `rowBoard`. -/
def rowBoard1 : MinesweeperGame := (rowBoard.reveal_cell ⟨0, 0⟩ {Position.mk 0 2} 0).2

/-- State after the out-of-grid reveal on `rowBoard1`. -/
def rowBoard2 : MinesweeperGame := (rowBoard1.reveal_cell ⟨-1, 1⟩ ∅ 0).2

/-- C8 counterexample: after a sequence of `reveal_cell` calls (the second with an
out-of-grid position), position (0, 2) is simultaneously flagged and revealed, so
the claimed invariant fails for unrestricted call sequences. -/
theorem claim_C8_counterexample :
    ValidSample rowBoard ⟨0, 0⟩ {Position.mk 0 2} ∧
    rowBoard1.state = GameState.playing ∧
    (⟨0, 2⟩ : Position) ∈ rowBoard2.flags ∧
    (⟨0, 2⟩ : Position) ∈ rowBoard2.revealed :=
  ⟨⟨by decide, by decide⟩, by decide, by decide, by decide⟩

/-! ### C9: out-of-grid positions -/

/-- C9 amended (the second half of the claim as stated fails for calls with
out-of-grid positions; see the counterexample).  Neighbour generation only
returns in-bounds positions, and along every sequence of engine calls whose
position arguments are in bounds the mine, revealed and flag sets stay inside the
grid. -/
theorem claim_C9_in_bounds :
    (∀ (p : Position) (rows cols : Nat) (q : Position),
      q ∈ p.neighbors rows cols → inGrid rows cols q = true) ∧
    (∀ g, ReachableInBounds g →
      g.mines ⊆ allCells g.rows g.cols ∧
      g.revealed ⊆ allCells g.rows g.cols ∧
      g.flags ⊆ allCells g.rows g.cols) := by
  constructor
  · intro p rows cols q hq
    exact mem_neighborsList_inGrid (mem_neighbors_iff.mp hq)
  · intro g h
    obtain ⟨i1, i2, i3, _, _, _, _⟩ := reachable_inv g h
    exact ⟨i1, i2, i3⟩

/-- C9 witness: a neighbour of (0, 0) on the 3 by 3 grid is in bounds, and the
sets of the concrete reachable mid-game state live on the grid. -/
theorem claim_C9_witness :
    inGrid 3 3 (⟨1, 1⟩ : Position) = true ∧
    midGame.flags ⊆ allCells midGame.rows midGame.cols :=
  ⟨claim_C9_in_bounds.1 ⟨0, 0⟩ 3 3 ⟨1, 1⟩ (by decide),
    (claim_C9_in_bounds.2 midGame
      (ReachableInBounds.reveal (MinesweeperGame.new 3 3 2) ⟨0, 0⟩
        {Position.mk 0 2, Position.mk 2 2} 0 (ReachableInBounds.fresh 3 3 2) (by decide)
        (fun _ => ⟨by decide, by decide⟩))).2.2⟩

/-- C9 counterexample state: the mid-game board after toggling a flag at the
out-of-grid position (-1, -1). -/
def midGameFlagged : MinesweeperGame := midGame.toggle_flag ⟨-1, -1⟩

/-- C9 counterexample: a sequence of engine calls starting from a fresh engine
(first reveal at (0, 0) with a producible sample, then a toggle at (-1, -1))
places an out-of-grid position into the flag set. -/
theorem claim_C9_counterexample :
    ValidSample (MinesweeperGame.new 3 3 2) ⟨0, 0⟩ {Position.mk 0 2, Position.mk 2 2} ∧
    midGame.state = GameState.playing ∧
    (⟨-1, -1⟩ : Position) ∈ midGameFlagged.flags ∧
    inGrid midGameFlagged.rows midGameFlagged.cols ⟨-1, -1⟩ = false :=
  ⟨⟨by decide, by decide⟩, by decide, by decide, by decide⟩
